import Mathlib

/-!
Verification of the cache-simulator engine in `riscv/cachesim.cc` /
`riscv/cachesim.h` (set-associative and fully-associative write-back caches
with LRU or LFSR-random replacement).

The C++ code is shallowly embedded: `uint64_t` values become `Nat` with
explicit 64-bit masks where wrap-around matters, arrays become total
functions guarded by the same bounds the allocation provides (an
out-of-bounds access or a division by zero in the source is modelled as
`Option.none`), and `std::map` becomes a key-sorted association list
(`std::map` iterates in ascending key order).  Calls forwarded to the
downstream miss handler are modelled as an emitted trace of
`(address, bytes, is_store)` triples, mirroring the collaborator contract.
-/

namespace CacheSimProof

/-- Bit 63, the VALID flag of a tag word (`cachesim.h`). -/
def VALID : Nat := 2 ^ 63

/-- Bit 62, the DIRTY flag of a tag word (`cachesim.h`). -/
def DIRTY : Nat := 2 ^ 62

/-- All 64 bits set; used to express `~x` on `uint64_t` as `MASK64 ^^^ x`. -/
def MASK64 : Nat := 2 ^ 64 - 1

/-- Complement of DIRTY within 64 bits, i.e. `~DIRTY` on `uint64_t`. -/
def NOT_DIRTY : Nat := MASK64 ^^^ DIRTY

/-- Complement of `VALID|DIRTY` within 64 bits, i.e. `~(VALID|DIRTY)`. -/
def NOT_FLAGS : Nat := MASK64 ^^^ (VALID ||| DIRTY)

/-- The value `n - 1` computed on `uint64_t`: wraps to `MASK64` when `n = 0`
(as `sets - 1` and `linesz - 1` do in the source for a zero field). -/
def sub1_64 (n : Nat) : Nat := if n = 0 then MASK64 else n - 1

/-- One step of the 32-bit Galois LFSR
(`reg = (reg>>1) ^ (-(reg&1) & 0xd0000001)` in `cachesim.h`); on `uint32_t`,
`-(reg&1)` is all-ones when the low bit is set and zero otherwise. -/
def lfsrNext (r : Nat) : Nat :=
  (r >>> 1) ^^^ (if r &&& 1 = 1 then 0xd0000001 else 0)

/-- Pointwise function update, modelling a store into a tag or priority
array slot. -/
def upd (f : Nat → Nat) (i v : Nat) : Nat → Nat :=
  fun m => if m = i then v else f m

/-- Boolean test for the VALID bit of an encoded tag word (the claims call a
slot with VALID set "occupied"). -/
def isValid (v : Nat) : Bool := v &&& VALID != 0

/-- State of one set-associative `cache_sim_t` node.  `tags` and
`tag_priority` are the `sets*ways` flat arrays, modelled as total functions
whose reads are bounds-guarded at use sites.  The `wb` field is modelled
from the spec: the `wb` flag read by `cache_sim_t::access` is declared and
initialized outside the two files under review, and the spec fixes the
write policy to write-back with write-through as a documented variant, so
it is carried here as a construction-time flag.  The miss handler is
modelled as a presence flag plus an emitted call trace. -/
structure CacheSim where
  sets : Nat
  ways : Nat
  linesz : Nat
  lru : Bool
  wb : Bool
  idx_shift : Nat
  tags : Nat → Nat
  tag_priority : Nat → Nat
  lfsr : Nat
  read_accesses : Nat
  read_misses : Nat
  bytes_read : Nat
  write_accesses : Nat
  write_misses : Nat
  bytes_written : Nat
  writebacks : Nat
  has_miss_handler : Bool

/-- Index of the set selected by an address:
`(addr >> idx_shift) & (sets-1)` with `uint64_t` subtraction. -/
def setIdx (s : CacheSim) (addr : Nat) : Nat :=
  (addr >>> s.idx_shift) &&& sub1_64 s.sets

/-- Encoded tag word looked up and installed for an address:
`(addr >> idx_shift) | VALID`. -/
def tagOf (s : CacheSim) (addr : Nat) : Nat :=
  (addr >>> s.idx_shift) ||| VALID

/-- Linear scan of the `ways` slots of set `idx` for the first slot whose
word matches `tag` ignoring DIRTY (`cache_sim_t::check_tag` loop). -/
def findWay (s : CacheSim) (idx tag : Nat) : Option Nat :=
  (List.range s.ways).find? (fun i => (s.tags (idx * s.ways + i) &&& NOT_DIRTY) == tag)

/-- LRU priority update performed by `check_tag` on a hit at slot `m0` of the
set based at `base`: every slot of the set whose priority is strictly below
the matched slot's is incremented, then the matched slot's priority becomes
0.  The C++ loop reads the matched slot's priority, which it never modifies,
so the sequential loop equals this simultaneous update. -/
def hitPrio (p : Nat → Nat) (base w m0 : Nat) : Nat → Nat :=
  fun m =>
    if m = m0 then 0
    else if base ≤ m ∧ m < base + w ∧ p m < p m0 then p m + 1 else p m

/-- Aging step of LRU `victimize`: every priority of the set is incremented
(the `++tag_priority[...]` inside the scan ages all `ways` slots). -/
def agePrio (p : Nat → Nat) (base w : Nat) : Nat → Nat :=
  fun m => if base ≤ m ∧ m < base + w then p m + 1 else p m

/-- The max-scan of LRU `victimize`: starting from
`(max_priority, max_tag_idx) = (0, base)`, slots `base+0 .. base+(w-1)` are
scanned in order and the accumulator is replaced on a strictly greater
priority.  Returns the final `(max_priority, max_tag_idx)`. -/
def selMax (p : Nat → Nat) (base : Nat) : Nat → Nat × Nat
  | 0 => (0, base)
  | n + 1 =>
    let acc := selMax p base n
    if p (base + n) > acc.1 then (p (base + n), base + n) else acc

/-- `cache_sim_t::victimize`: selects a slot of the addressed set and
installs `tagOf addr` there.  Returns the old encoded word of the slot
together with the updated tag array, priority array and LFSR register (the
three pieces of state it mutates).  `none` models the undefined behaviour
reachable in the source: the `% ways` with `ways = 0` in the random branch,
and reads/writes beyond the `sets*ways` allocation. -/
def victimize (s : CacheSim) (addr : Nat) :
    Option (Nat × (Nat → Nat) × (Nat → Nat) × Nat) :=
  let idx := setIdx s addr
  if s.lru then
    let aged := agePrio s.tag_priority (idx * s.ways) s.ways
    let mti := (selMax aged (idx * s.ways) s.ways).2
    if mti < s.sets * s.ways then
      some (s.tags mti, upd s.tags mti (tagOf s addr), upd aged mti 0, s.lfsr)
    else none
  else
    if s.ways = 0 then none
    else
      let r := lfsrNext s.lfsr
      let m := idx * s.ways + r % s.ways
      if m < s.sets * s.ways then
        some (s.tags m, upd s.tags m (tagOf s addr), s.tag_priority, r)
      else none

/-- `cache_sim_t::check_tag`: returns the matching absolute slot index (the
source returns a pointer to the slot) together with the tag-priority array
after the LRU update a hit performs — the only state `check_tag` mutates. -/
def check_tag (s : CacheSim) (addr : Nat) : Option Nat × (Nat → Nat) :=
  let idx := setIdx s addr
  match findWay s idx (tagOf s addr) with
  | none => (none, s.tag_priority)
  | some i =>
    if s.lru then
      (some (idx * s.ways + i),
       hitPrio s.tag_priority (idx * s.ways) s.ways (idx * s.ways + i))
    else (some (idx * s.ways + i), s.tag_priority)

/-- Result of one `access`: hit flag, whether `victimize` ran, the encoded
victim word it returned (0 when no miss occurred), and the trace of calls
forwarded to the miss handler in order. -/
structure AccessOut where
  hit : Bool
  victimized : Bool
  victim : Nat
  calls : List (Nat × Nat × Bool)
deriving DecidableEq

/-- Access-counter bump at the top of `access` (lines 171-172). -/
def bumpAccess (s : CacheSim) (bytes : Nat) (store : Bool) : CacheSim :=
  if store then
    { s with write_accesses := s.write_accesses + 1, bytes_written := s.bytes_written + bytes }
  else
    { s with read_accesses := s.read_accesses + 1, bytes_read := s.bytes_read + bytes }

/-- Miss-counter bump (line 185). -/
def bumpMiss (s : CacheSim) (store : Bool) : CacheSim :=
  if store then { s with write_misses := s.write_misses + 1 }
  else { s with read_misses := s.read_misses + 1 }

/-- Line-aligned address `addr & ~(linesz-1)` used for fill and
write-through requests. -/
def lineBase (s : CacheSim) (addr : Nat) : Nat :=
  addr &&& (MASK64 ^^^ sub1_64 s.linesz)

/-- Writeback address `(victim & ~(VALID|DIRTY)) << idx_shift`, truncated to
64 bits as the `uint64_t` shift is. -/
def dirtyAddrOf (s : CacheSim) (victim : Nat) : Nat :=
  ((victim &&& NOT_FLAGS) <<< s.idx_shift) % 2 ^ 64

/-- Hit handling of `access` (lines 175-182): write-back stores set DIRTY on
the matched slot, write-through stores forward a line store downstream.
Returns the updated tag array and the observable outcome. -/
def hitStep (s : CacheSim) (addr m : Nat) (store : Bool) : (Nat → Nat) × AccessOut :=
  if store && s.wb then
    (upd s.tags m (s.tags m ||| DIRTY), ⟨true, false, 0, []⟩)
  else if store && s.has_miss_handler then
    (s.tags, ⟨true, false, 0, [(lineBase s addr, s.linesz, true)]⟩)
  else (s.tags, ⟨true, false, 0, []⟩)

/-- Writeback handling after `victimize` (lines 195-201): when the cache is
write-back and the victim is VALID and DIRTY, the dirty line is forwarded
(if a miss handler is wired) and `writebacks` increments.  Returns the new
`writebacks` value and the forwarded calls. -/
def wbStep (s : CacheSim) (victim : Nat) : Nat × List (Nat × Nat × Bool) :=
  if s.wb && (victim &&& (VALID ||| DIRTY) == VALID ||| DIRTY) then
    (s.writebacks + 1,
     if s.has_miss_handler then [(dirtyAddrOf s victim, s.linesz, true)] else [])
  else (s.writebacks, [])

/-- Fill request forwarded downstream on a miss (lines 203-204). -/
def fillStep (s : CacheSim) (addr : Nat) : List (Nat × Nat × Bool) :=
  if s.has_miss_handler then [(lineBase s addr, s.linesz, false)] else []

/-- Store handling at the end of a miss (lines 206-209): a write-back store
re-probes with `check_tag` and sets DIRTY through the returned pointer
(`none` models the null-pointer dereference when the re-probe misses); a
write-through store forwards a line store downstream. -/
def storeStep (s : CacheSim) (addr : Nat) (store : Bool) :
    Option ((Nat → Nat) × (Nat → Nat) × List (Nat × Nat × Bool)) :=
  if store && s.wb then
    match check_tag s addr with
    | (some m, p5) => some (upd s.tags m (s.tags m ||| DIRTY), p5, [])
    | (none, _) => none
  else if store && s.has_miss_handler then
    some (s.tags, s.tag_priority, [(lineBase s addr, s.linesz, true)])
  else some (s.tags, s.tag_priority, [])

/-- `cache_sim_t::access(addr, bytes, store)`.  `none` models the undefined
behaviour paths (division by zero, out-of-bounds array slot, null
dereference); otherwise the new state and the observable outcome. -/
def access (s : CacheSim) (addr bytes : Nat) (store : Bool) :
    Option (CacheSim × AccessOut) :=
  let s0 := bumpAccess s bytes store
  match check_tag s0 addr with
  | (some m, p1) =>
    let s1 := { s0 with tag_priority := p1 }
    let hres := hitStep s1 addr m store
    some ({ s1 with tags := hres.1 }, hres.2)
  | (none, _) =>
    let s2 := bumpMiss s0 store
    match victimize s2 addr with
    | none => none
    | some (victim, tg, pr, lf) =>
      let s3 := { s2 with tags := tg, tag_priority := pr, lfsr := lf }
      let wres := wbStep s3 victim
      let s4 := { s3 with writebacks := wres.1 }
      match storeStep s4 addr store with
      | none => none
      | some (tg6, pr6, scalls) =>
        some ({ s4 with tags := tg6, tag_priority := pr6 },
              ⟨false, true, victim, wres.2 ++ fillStep s4 addr ++ scalls⟩)

/-- The halving loop of `init` that computes `idx_shift`
(`for (x = linesz; x > 1; x >>= 1) idx_shift++`), with the first argument a
fuel bound on the iteration count; `x` at least halves each round, so
`linesz` itself is enough fuel. -/
def idxShiftLoop : Nat → Nat → Nat
  | 0, _ => 0
  | f + 1, x => if 1 < x then idxShiftLoop f (x >>> 1) + 1 else 0

/-- Number of halvings of `linesz` down to 1, i.e. `log2 linesz` for a power
of two: the `idx_shift` that `init` computes. -/
def idxShiftOf (linesz : Nat) : Nat := idxShiftLoop linesz linesz

/-- A freshly initialized cache as `cache_sim_t::init` leaves it: zeroed tag
and priority arrays, counters at 0, LFSR seeded to 1, and
`idx_shift` from the halving loop.  Geometry validation is performed by the
configuration layer (`constructCfg` below); `wb` and the miss-handler
presence are the modelled-from-spec construction flags described on
`CacheSim`. -/
def mkCache (sets ways linesz : Nat) (lru wb mh : Bool) : CacheSim :=
  { sets := sets, ways := ways, linesz := linesz, lru := lru, wb := wb,
    idx_shift := idxShiftOf linesz,
    tags := fun _ => 0, tag_priority := fun _ => 0,
    lfsr := 1,
    read_accesses := 0, read_misses := 0, bytes_read := 0,
    write_accesses := 0, write_misses := 0, bytes_written := 0,
    writebacks := 0,
    has_miss_handler := mh }

/-- Runs a list of `(addr, bytes, store)` accesses left to right. -/
def run (s : CacheSim) : List (Nat × Nat × Bool) → Option CacheSim
  | [] => some s
  | (a, b, st) :: rest =>
    match access s a b st with
    | none => none
    | some (s', _) => run s' rest

/-- Splits a character list at its first `':'`, as `strchr` plus the
substring constructions in `cache_sim_t::construct` do; `none` when no
colon occurs (the source then calls `help()` and exits). -/
def splitColon : List Char → Option (List Char × List Char)
  | [] => none
  | c :: t =>
    if c = ':' then some ([], t)
    else
      match splitColon t with
      | none => none
      | some (a, b) => some (c :: a, b)

/-- Accumulates the leading decimal digits, stopping at the first
non-digit, as `atoi` does after sign handling. -/
def digitsVal : List Char → Nat → Nat
  | c :: t, acc =>
    if '0' ≤ c ∧ c ≤ '9' then digitsVal t (acc * 10 + (c.toNat - '0'.toNat)) else acc
  | [], acc => acc

/-- C whitespace characters skipped by `atoi`. -/
def isSpaceC (c : Char) : Bool :=
  c = ' ' ∨ c = '\t' ∨ c = '\n' ∨ c = '\x0b' ∨ c = '\x0c' ∨ c = '\r'

/-- `atoi`: skip whitespace, optional sign, then leading digits (0 when none). -/
def atoiInt (l : List Char) : Int :=
  match l.dropWhile isSpaceC with
  | '-' :: t => -(digitsVal t 0 : Int)
  | '+' :: t => (digitsVal t 0 : Int)
  | t => (digitsVal t 0 : Int)

/-- Conversion of the `atoi` result to `size_t` (negative values wrap
modulo `2^64`). -/
def toSize (i : Int) : Nat := (i % (2 ^ 64 : Int)).toNat

/-- The configuration a successful `cache_sim_t::construct` produces: which
variant was instantiated and the geometry handed to its constructor. -/
structure CacheCfg where
  fa : Bool
  sets : Nat
  ways : Nat
  linesz : Nat
  lru : Bool
deriving DecidableEq

/-- Geometry validation performed by `cache_sim_t::init`:
`sets` nonzero and a power of two, `linesz` at least 8 and a power of two
(`ways` is never checked). -/
def validGeom (sets linesz : Nat) : Bool :=
  !(sets == 0 || (sets &&& (sets - 1)) != 0) &&
  !(decide (linesz < 8) || (linesz &&& (linesz - 1)) != 0)

/-- `cache_sim_t::construct`: parse `sets:ways:blocksize[:lru]`, dispatch to
the fully-associative variant exactly when `ways > 4 && sets == 1`, and
validate the geometry in the constructor's `init`.  `none` models every
`help()`-and-exit path; no cache object is produced there. -/
def constructCfg (cfg : String) : Option CacheCfg :=
  match splitColon cfg.toList with
  | none => none
  | some (f1, rest1) =>
    match splitColon rest1 with
    | none => none
    | some (f2, rest2) =>
      let sets := toSize (atoiInt f1)
      let ways := toSize (atoiInt f2)
      match splitColon rest2 with
      | none =>
        let linesz := toSize (atoiInt rest2)
        if validGeom sets linesz then
          some ⟨ways > 4 && sets == 1, sets, ways, linesz, false⟩
        else none
      | some (f3, rest3) =>
        let linesz := toSize (atoiInt f3)
        if rest3 = "lru".toList then
          if validGeom sets linesz then
            some ⟨ways > 4 && sets == 1, sets, ways, linesz, true⟩
          else none
        else none

/-- The fresh set-associative node a successful `construct` builds from a
configuration (write-back per the spec's hard-coded write policy). -/
def mkCacheOfCfg (c : CacheCfg) (wb mh : Bool) : CacheSim :=
  mkCache c.sets c.ways c.linesz c.lru wb mh

/-- Way indices of a set whose occupancy predicate holds, in scan order. -/
def occListA (w : Nat) (occ : Nat → Bool) : List Nat :=
  (List.range w).filter occ

/-- Number of occupied ways of a set. -/
def kOf (w : Nat) (occ : Nat → Bool) : Nat := (occListA w occ).length

/-- Occupancy of way `i` of set `idx`: the VALID bit of its tag word. -/
def setOcc (s : CacheSim) (idx : Nat) : Nat → Bool :=
  fun i => isValid (s.tags (idx * s.ways + i))

/-- Priority of way `i` of set `idx`. -/
def setPrio (s : CacheSim) (idx : Nat) : Nat → Nat :=
  fun i => s.tag_priority (idx * s.ways + i)

/-- LRU book-keeping invariant of one set, over its way-relative occupancy
and priority views: occupied priorities are distinct and below the
occupancy count, and every unoccupied way's priority is at least the
occupancy count. -/
def invA (w : Nat) (occ : Nat → Bool) (p : Nat → Nat) : Prop :=
  (∀ i ∈ occListA w occ, p i < kOf w occ) ∧
  (∀ i ∈ occListA w occ, ∀ j ∈ occListA w occ, p i = p j → i = j) ∧
  (∀ i, i < w → i ∉ occListA w occ → kOf w occ ≤ p i)

/-- LRU invariant over all sets. -/
def lruInv (s : CacheSim) : Prop :=
  ∀ idx, idx < s.sets → invA s.ways (setOcc s idx) (setPrio s idx)

/-- Keys of an association list. -/
def keysOf (l : List (Nat × Nat)) : List Nat := l.map Prod.fst

/-- Insertion into a key-sorted association list, overwriting the value if
the key is present: the net effect of `map[key] = value` on `std::map`. -/
def insertSorted (k v : Nat) : List (Nat × Nat) → List (Nat × Nat)
  | [] => [(k, v)]
  | e :: t =>
    if k < e.1 then (k, v) :: e :: t
    else if k = e.1 then (k, v) :: t
    else e :: insertSorted k v t

/-- `map.erase(key)`: removes the entry with the given key, if present. -/
def eraseKey (k : Nat) (l : List (Nat × Nat)) : List (Nat × Nat) :=
  l.eraseP (fun e => e.1 == k)

/-- Ages every priority entry by one (the `++entry.second` sweep of the
fully-associative LRU `victimize`). -/
def mapAge (l : List (Nat × Nat)) : List (Nat × Nat) :=
  l.map (fun e => (e.1, e.2 + 1))

/-- The max-scan of the fully-associative LRU `victimize` over the (already
aged) priority map in ascending key order, with `max_priority`
starting at 0; `none` models the uninitialized `max_tag_key` that an empty
map would leave. -/
def scanMax (l : List (Nat × Nat)) : Nat × Option Nat :=
  l.foldl (fun acc e => if e.2 > acc.1 then (e.2, some e.1) else acc) (0, none)

/-- Value stored under a key, when present. -/
def lookupV (l : List (Nat × Nat)) (k : Nat) : Option Nat :=
  match l.find? (fun e => e.1 == k) with
  | none => none
  | some e => some e.2

/-- Fully-associative LRU priority update on a hit at `key`
(`fa_cache_sim_t::check_tag`): every other entry strictly below the matched
priority is incremented, then the matched entry is set to 0 (through
`operator[]`, whose assignment `insertSorted` models). -/
def faHitPrio (tp : List (Nat × Nat)) (key : Nat) : List (Nat × Nat) :=
  insertSorted key 0
    (tp.map (fun e => if e.1 ≠ key ∧ e.2 < (lookupV tp key).getD 0 then (e.1, e.2 + 1) else e))

/-- State of a `fa_cache_sim_t` node.  `tags` shadows the flat array with a
`std::map` from shifted address to encoded word, modelled as a key-sorted
association list; `tag_priority` is likewise a map (its declaration is
modelled from the spec: the header under review still declares the base
class's flat array, but the spec and the fully-associative code use a
mapping from tag key to priority). -/
structure FaCacheSim where
  ways : Nat
  linesz : Nat
  lru : Bool
  wb : Bool
  idx_shift : Nat
  tags : List (Nat × Nat)
  tag_priority : List (Nat × Nat)
  lfsr : Nat
  read_accesses : Nat
  read_misses : Nat
  bytes_read : Nat
  write_accesses : Nat
  write_misses : Nat
  bytes_written : Nat
  writebacks : Nat
  has_miss_handler : Bool
deriving DecidableEq

/-- `fa_cache_sim_t::check_tag`: map lookup of the shifted address; a hit
requires presence and VALID, and performs the LRU priority update. -/
def faCheckTag (s : FaCacheSim) (addr : Nat) : Option Nat × FaCacheSim :=
  let key := addr >>> s.idx_shift
  match lookupV s.tags key with
  | none => (none, s)
  | some v =>
    if v &&& VALID == 0 then (none, s)
    else
      (some key,
       if s.lru then { s with tag_priority := faHitPrio s.tag_priority key } else s)

/-- `fa_cache_sim_t::victimize`: when the map is full, evict by aged maximum
priority (LRU) or by ordinal position `lfsr.next() % ways` in ascending key
order (random); then insert the new key.  Returns
`(victim, eviction-branch-taken, new state)`; `none` models the undefined
behaviour of `% 0` / advancing past `end()` / the uninitialized
`max_tag_key`.  In the LRU eviction, `tags[max_tag_key]` is read through
`operator[]`, whose net effect when the key is absent (default-insert 0,
then erase) is the default value 0, hence `getD 0`. -/
def faVictimize (s : FaCacheSim) (addr : Nat) : Option (Nat × Bool × FaCacheSim) :=
  let key := addr >>> s.idx_shift
  let evicted :=
    if s.tags.length = s.ways then
      if s.lru then
        let aged := mapAge s.tag_priority
        match (scanMax aged).2 with
        | none => none
        | some mk =>
          some ((lookupV s.tags mk).getD 0, true,
            { s with tags := eraseKey mk s.tags, tag_priority := eraseKey mk aged })
      else
        if s.ways = 0 then none
        else
          let r := lfsrNext s.lfsr
          match s.tags.get? (r % s.ways) with
          | none => none
          | some e =>
            some (e.2, true, { s with lfsr := r, tags := s.tags.eraseIdx (r % s.ways) })
    else some (0, false, s)
  match evicted with
  | none => none
  | some (v, ev, s1) =>
    some (v, ev,
      { s1 with
        tags := insertSorted key (key ||| VALID) s1.tags,
        tag_priority := if s1.lru then insertSorted key 0 s1.tag_priority else s1.tag_priority })

/-- Result of one fully-associative `access`; `evicted` records whether the
full-map eviction branch ran. -/
structure FaAccessOut where
  hit : Bool
  evicted : Bool
  victim : Nat
  calls : List (Nat × Nat × Bool)
deriving DecidableEq

/-- Line-aligned address for the fully-associative node. -/
def faLineBase (s : FaCacheSim) (addr : Nat) : Nat :=
  addr &&& (MASK64 ^^^ sub1_64 s.linesz)

/-- Writeback address for the fully-associative node. -/
def faDirtyAddrOf (s : FaCacheSim) (victim : Nat) : Nat :=
  ((victim &&& NOT_FLAGS) <<< s.idx_shift) % 2 ^ 64

/-- Sets DIRTY on the map value stored under `key` (the `*hit_way |= DIRTY`
through the pointer `check_tag` returned). -/
def faOrDirty (l : List (Nat × Nat)) (key : Nat) : List (Nat × Nat) :=
  l.map (fun e => if e.1 = key then (e.1, e.2 ||| DIRTY) else e)

/-- `cache_sim_t::access` as executed by a `fa_cache_sim_t` node: the same
orchestration (the source shares it through virtual dispatch of
`check_tag`/`victimize`), restated over the fully-associative state. -/
def faAccess (s : FaCacheSim) (addr bytes : Nat) (store : Bool) :
    Option (FaCacheSim × FaAccessOut) :=
  let s0 :=
    if store then
      { s with write_accesses := s.write_accesses + 1, bytes_written := s.bytes_written + bytes }
    else
      { s with read_accesses := s.read_accesses + 1, bytes_read := s.bytes_read + bytes }
  match faCheckTag s0 addr with
  | (some key, s1) =>
    if store && s1.wb then
      some ({ s1 with tags := faOrDirty s1.tags key }, ⟨true, false, 0, []⟩)
    else if store && s1.has_miss_handler then
      some (s1, ⟨true, false, 0, [(faLineBase s1 addr, s1.linesz, true)]⟩)
    else some (s1, ⟨true, false, 0, []⟩)
  | (none, _) =>
    let s2 :=
      if store then { s0 with write_misses := s0.write_misses + 1 }
      else { s0 with read_misses := s0.read_misses + 1 }
    match faVictimize s2 addr with
    | none => none
    | some (victim, ev, s3) =>
      let s4 :=
        if s3.wb && (victim &&& (VALID ||| DIRTY) == VALID ||| DIRTY) then
          { s3 with writebacks := s3.writebacks + 1 }
        else s3
      let wcalls :=
        if s3.wb && (victim &&& (VALID ||| DIRTY) == VALID ||| DIRTY) then
          if s3.has_miss_handler then [(faDirtyAddrOf s3 victim, s3.linesz, true)] else []
        else []
      let fcalls := if s4.has_miss_handler then [(faLineBase s4 addr, s4.linesz, false)] else []
      if store && s4.wb then
        match faCheckTag s4 addr with
        | (some key, s5) =>
          some ({ s5 with tags := faOrDirty s5.tags key },
            ⟨false, ev, victim, wcalls ++ fcalls⟩)
        | (none, _) => none
      else if store && s4.has_miss_handler then
        some (s4, ⟨false, ev, victim, wcalls ++ fcalls ++ [(faLineBase s4 addr, s4.linesz, true)]⟩)
      else some (s4, ⟨false, ev, victim, wcalls ++ fcalls⟩)

/-- A freshly constructed fully-associative node (empty maps, counters 0,
LFSR seeded to 1). -/
def mkFaCache (ways linesz : Nat) (lru wb mh : Bool) : FaCacheSim :=
  { ways := ways, linesz := linesz, lru := lru, wb := wb,
    idx_shift := idxShiftOf linesz,
    tags := [], tag_priority := [],
    lfsr := 1,
    read_accesses := 0, read_misses := 0, bytes_read := 0,
    write_accesses := 0, write_misses := 0, bytes_written := 0,
    writebacks := 0,
    has_miss_handler := mh }

/-- Runs fully-associative accesses, also counting how many of them took the
eviction branch. -/
def faRunEv (s : FaCacheSim) (n : Nat) :
    List (Nat × Nat × Bool) → Option (FaCacheSim × Nat)
  | [] => some (s, n)
  | (a, b, st) :: rest =>
    match faAccess s a b st with
    | none => none
    | some (s', o) => faRunEv s' (n + (if o.evicted then 1 else 0)) rest

/-- Structural invariant of the fully-associative maps: the tag map has at
most `ways` entries and, under LRU, the priority map has strictly
increasing (hence duplicate-free) keys all of which are keys of the tag
map — the `std::map` well-formedness the bound relies on. -/
def faInv (s : FaCacheSim) : Prop :=
  s.tags.length ≤ s.ways ∧
  (s.lru = true →
    List.Pairwise (· < ·) (keysOf s.tag_priority) ∧
    ∀ x, x ∈ keysOf s.tag_priority → x ∈ keysOf s.tags)

/-- Record form of `bumpAccess`. -/
theorem bumpAccess_eq (s : CacheSim) (b : Nat) (st : Bool) :
    bumpAccess s b st =
      { s with
        read_accesses := s.read_accesses + (if st then 0 else 1),
        write_accesses := s.write_accesses + (if st then 1 else 0),
        bytes_read := s.bytes_read + (if st then 0 else b),
        bytes_written := s.bytes_written + (if st then b else 0) } := by
  unfold bumpAccess; cases st <;> rfl

/-- Record form of `bumpMiss`. -/
theorem bumpMiss_eq (s : CacheSim) (st : Bool) :
    bumpMiss s st =
      { s with
        read_misses := s.read_misses + (if st then 0 else 1),
        write_misses := s.write_misses + (if st then 1 else 0) } := by
  unfold bumpMiss; cases st <;> rfl

/-- A hit outcome always reports a hit, no victimization and victim 0. -/
theorem hitStep_out (s : CacheSim) (a m : Nat) (st : Bool) :
    (hitStep s a m st).2.hit = true ∧ (hitStep s a m st).2.victimized = false ∧
    (hitStep s a m st).2.victim = 0 := by
  unfold hitStep; repeat' split
  all_goals exact ⟨rfl, rfl, rfl⟩

/-- Exact counter bookkeeping of a single completed `access`. -/
theorem access_counters (s : CacheSim) (a b : Nat) (st : Bool) (s' : CacheSim)
    (o : AccessOut) (h : access s a b st = some (s', o)) :
    s'.read_accesses = s.read_accesses + (if st then 0 else 1) ∧
    s'.write_accesses = s.write_accesses + (if st then 1 else 0) ∧
    s'.bytes_read = s.bytes_read + (if st then 0 else b) ∧
    s'.bytes_written = s.bytes_written + (if st then b else 0) ∧
    s'.read_misses = s.read_misses + (if o.hit || st then 0 else 1) ∧
    s'.write_misses = s.write_misses + (if o.hit || !st then 0 else 1) ∧
    s'.writebacks = s.writebacks +
      (if o.hit then 0
       else if s.wb && (o.victim &&& (VALID ||| DIRTY) == VALID ||| DIRTY) then 1 else 0) := by
  simp only [access] at h
  rw [bumpAccess_eq] at h
  rcases hct : check_tag
      { s with
        read_accesses := s.read_accesses + (if st then 0 else 1),
        write_accesses := s.write_accesses + (if st then 1 else 0),
        bytes_read := s.bytes_read + (if st then 0 else b),
        bytes_written := s.bytes_written + (if st then b else 0) } a with ⟨oi, p1⟩
  rw [hct] at h
  rcases oi with _ | m
  · dsimp only at h
    rw [bumpMiss_eq] at h
    rcases hv : victimize _ a with _ | ⟨victim, tg, pr, lf⟩ <;> rw [hv] at h
    · exact Option.noConfusion h
    dsimp only at h
    rcases hs : storeStep _ a st with _ | ⟨tg6, pr6, scalls⟩ <;> rw [hs] at h
    · exact Option.noConfusion h
    dsimp only at h
    simp only [Option.some.injEq, Prod.mk.injEq] at h
    obtain ⟨h1, h2⟩ := h
    subst h1; subst h2
    unfold wbStep
    rcases hb : (s.wb && (victim &&& (VALID ||| DIRTY) == VALID ||| DIRTY)) with _ | _ <;>
      simp [hb] <;> cases st <;> simp
  · dsimp only at h
    simp only [Option.some.injEq, Prod.mk.injEq] at h
    obtain ⟨h1, h2⟩ := h
    subst h1; subst h2
    obtain ⟨hh, -, -⟩ := hitStep_out
      { s with
        read_accesses := s.read_accesses + (if st then 0 else 1),
        write_accesses := s.write_accesses + (if st then 1 else 0),
        bytes_read := s.bytes_read + (if st then 0 else b),
        bytes_written := s.bytes_written + (if st then b else 0),
        tag_priority := p1 } a m st
    simp [hh]

/-- C7: every completed access bumps exactly one of the two access counters
by 1, all seven counters are monotone along any access, and along every run
from a fresh cache the miss counters stay below the access counters and
`writebacks` below the total miss count. -/
theorem claim_C7 :
    (∀ s a b st s' o, access s a b st = some (s', o) →
      (if st then
        s'.write_accesses = s.write_accesses + 1 ∧ s'.read_accesses = s.read_accesses
       else
        s'.read_accesses = s.read_accesses + 1 ∧ s'.write_accesses = s.write_accesses)) ∧
    (∀ s a b st s' o, access s a b st = some (s', o) →
      s.read_accesses ≤ s'.read_accesses ∧ s.read_misses ≤ s'.read_misses ∧
      s.bytes_read ≤ s'.bytes_read ∧ s.write_accesses ≤ s'.write_accesses ∧
      s.write_misses ≤ s'.write_misses ∧ s.bytes_written ≤ s'.bytes_written ∧
      s.writebacks ≤ s'.writebacks) ∧
    (∀ sets ways linesz : Nat, ∀ lru wb mh : Bool, ∀ l s',
      run (mkCache sets ways linesz lru wb mh) l = some s' →
      s'.read_misses ≤ s'.read_accesses ∧ s'.write_misses ≤ s'.write_accesses ∧
      s'.writebacks ≤ s'.read_misses + s'.write_misses) := by
  refine ⟨?_, ?_, ?_⟩
  · intro s a b st s' o h
    obtain ⟨h1, h2, -⟩ := access_counters s a b st s' o h
    cases st <;> simp_all
  · intro s a b st s' o h
    obtain ⟨h1, h2, h3, h4, h5, h6, h7⟩ := access_counters s a b st s' o h
    refine ⟨?_, ?_, ?_, ?_, ?_, ?_, ?_⟩ <;> omega
  · intro sets ways linesz lru wb mh l s' h
    have key : ∀ (l : List (Nat × Nat × Bool)) (t t' : CacheSim), run t l = some t' →
        t.read_misses ≤ t.read_accesses → t.write_misses ≤ t.write_accesses →
        t.writebacks ≤ t.read_misses + t.write_misses →
        t'.read_misses ≤ t'.read_accesses ∧ t'.write_misses ≤ t'.write_accesses ∧
        t'.writebacks ≤ t'.read_misses + t'.write_misses := by
      intro l
      induction l with
      | nil =>
        intro t t' h h1 h2 h3
        simp only [run, Option.some.injEq] at h
        subst h
        exact ⟨h1, h2, h3⟩
      | cons hd tl ih =>
        intro t t' h h1 h2 h3
        rcases hd with ⟨a, b, st⟩
        simp only [run] at h
        rcases ha : access t a b st with _ | ⟨tm, o⟩ <;> rw [ha] at h
        · exact Option.noConfusion h
        obtain ⟨c1, c2, c3, c4, c5, c6, c7⟩ := access_counters t a b st tm o ha
        refine ih tm t' h ?_ ?_ ?_
        · cases ho : o.hit <;> cases st <;> (try simp_all) <;> omega
        · cases ho : o.hit <;> cases st <;> (try simp_all) <;> omega
        · cases ho : o.hit <;> cases st <;> (try simp_all) <;> (try split at c7) <;>
            (try split) <;> omega
    exact key l _ s' h (by simp [mkCache]) (by simp [mkCache]) (by simp [mkCache])

/-- C7 witness: the three parts of the claim applied to a concrete load on a
fresh `2:1:8` cache and to the singleton run it forms. -/
theorem claim_C7_witness :
    (access (mkCache 2 1 8 false true false) 0 4 false).map
        (fun p => (p.1.read_accesses, p.1.write_accesses)) = some (1, 0) ∧
    (run (mkCache 2 1 8 false true false) [(0, 4, false)]).map
        (fun t => (t.read_misses ≤ t.read_accesses : Bool)) = some true := by
  constructor
  · rcases hacc : access (mkCache 2 1 8 false true false) 0 4 false with _ | ⟨s', o⟩
    · have hsome : (access (mkCache 2 1 8 false true false) 0 4 false).isSome = true := by decide
      rw [hacc] at hsome
      exact absurd hsome (by simp)
    · have h1 := (claim_C7.1 (mkCache 2 1 8 false true false) 0 4 false s' o hacc).1
      have h2 := (claim_C7.1 (mkCache 2 1 8 false true false) 0 4 false s' o hacc).2
      simp only [Option.map, hacc]
      have e1 : (mkCache 2 1 8 false true false).read_accesses = 0 := rfl
      have e2 : (mkCache 2 1 8 false true false).write_accesses = 0 := rfl
      rw [e1] at h1; rw [e2] at h2
      simp [h1, h2]
  · rcases hrun : run (mkCache 2 1 8 false true false) [(0, 4, false)] with _ | s'
    · have hsome : (run (mkCache 2 1 8 false true false) [(0, 4, false)]).isSome = true := by
        decide
      rw [hrun] at hsome
      exact absurd hsome (by simp)
    · have h3 := (claim_C7.2.2 2 1 8 false true false [(0, 4, false)] s' hrun).1
      simp [hrun, h3]

/-- A word without the VALID bit can never pass the
`(victim & (VALID|DIRTY)) == (VALID|DIRTY)` writeback test. -/
theorem not_flags_of_valid_zero (v : Nat) (h : v &&& VALID = 0) :
    (v &&& (VALID ||| DIRTY) == VALID ||| DIRTY) = false := by
  rw [beq_eq_false_iff_ne]
  intro he
  have h1 : (v &&& VALID).testBit 63 = false := by rw [h]; simp
  rw [Nat.testBit_and] at h1
  have hV : VALID.testBit 63 = true := by decide
  rw [hV, Bool.and_true] at h1
  have h2 := congrArg (fun x => Nat.testBit x 63) he
  simp only [Nat.testBit_and, Nat.testBit_or, hV, h1, Bool.false_and, Bool.true_or] at h2
  exact Bool.noConfusion h2

/-- Under write-back, the post-miss store handling forwards nothing (it sets
DIRTY through the re-probed pointer instead). -/
theorem storeStep_wb_calls (s : CacheSim) (a : Nat) (st : Bool) (tg6 pr6 : Nat → Nat)
    (cs : List (Nat × Nat × Bool))
    (h : storeStep s a st = some (tg6, pr6, cs)) (hwb : s.wb = true) : cs = [] := by
  unfold storeStep at h
  rw [hwb, Bool.and_true] at h
  cases st
  · simp only [Bool.false_and, Bool.false_eq_true, if_false, Option.some.injEq,
      Prod.mk.injEq] at h
    exact h.2.2.symm
  · simp only [if_true] at h
    rcases hc : check_tag s a with ⟨oi, p5⟩
    rw [hc] at h
    rcases oi with _ | m
    · exact Option.noConfusion h
    · dsimp only at h
      simp only [Option.some.injEq, Prod.mk.injEq] at h
      exact h.2.2.symm

/-- C1: on every miss of a write-back cache, a writeback happens exactly
when the evicted word `V` carries both VALID and DIRTY: then `writebacks`
grows by one and, when a miss handler is wired, the reconstructed dirty
line address is forwarded as a store; when `V` lacks VALID, the writeback
counter is untouched, nothing is forwarded as a store, and the fill request
still goes out. -/
theorem claim_C1 (s : CacheSim) (a b : Nat) (st : Bool) (s' : CacheSim) (o : AccessOut)
    (hwb : s.wb = true) (h : access s a b st = some (s', o)) (hmiss : o.hit = false) :
    (s'.writebacks = s.writebacks +
      (if o.victim &&& (VALID ||| DIRTY) = VALID ||| DIRTY then 1 else 0)) ∧
    (o.victim &&& (VALID ||| DIRTY) = VALID ||| DIRTY →
      s.has_miss_handler = true →
      (dirtyAddrOf s o.victim, s.linesz, true) ∈ o.calls) ∧
    (o.victim &&& VALID = 0 →
      s'.writebacks = s.writebacks ∧
      (∀ c ∈ o.calls, c.2.2 = false) ∧
      (s.has_miss_handler = true → (lineBase s a, s.linesz, false) ∈ o.calls)) := by
  simp only [access] at h
  rw [bumpAccess_eq] at h
  rcases hct : check_tag
      { s with
        read_accesses := s.read_accesses + (if st then 0 else 1),
        write_accesses := s.write_accesses + (if st then 1 else 0),
        bytes_read := s.bytes_read + (if st then 0 else b),
        bytes_written := s.bytes_written + (if st then b else 0) } a with ⟨oi, p1⟩
  rw [hct] at h
  rcases oi with _ | m
  · dsimp only at h
    rw [bumpMiss_eq] at h
    rcases hv : victimize _ a with _ | ⟨victim, tg, pr, lf⟩ <;> rw [hv] at h
    · exact Option.noConfusion h
    dsimp only at h
    rcases hs : storeStep _ a st with _ | ⟨tg6, pr6, scalls⟩ <;> rw [hs] at h
    · exact Option.noConfusion h
    dsimp only at h
    simp only [Option.some.injEq, Prod.mk.injEq] at h
    obtain ⟨h1, h2⟩ := h
    subst h1; subst h2
    have hscalls : scalls = [] := storeStep_wb_calls _ a st tg6 pr6 scalls hs hwb
    subst hscalls
    unfold wbStep fillStep
    dsimp only
    rw [hwb, Bool.true_and]
    rcases hb : (victim &&& (VALID ||| DIRTY) == VALID ||| DIRTY) with _ | _
    · have hb' : ¬ victim &&& (VALID ||| DIRTY) = VALID ||| DIRTY :=
        beq_eq_false_iff_ne.mp hb
      refine ⟨by simp [hb'], fun hc => absurd hc hb', fun _ => ⟨by simp [hb'], ?_, ?_⟩⟩
      · intro c hc
        rcases hmh : s.has_miss_handler with _ | _ <;> simp [hmh] at hc
        rw [hc]
      · intro hmh
        simp [hmh, lineBase]
    · have hb' : victim &&& (VALID ||| DIRTY) = VALID ||| DIRTY := beq_iff_eq.mp hb
      refine ⟨by simp [hb'], fun _ hmh => ?_, fun hz => ?_⟩
      · simp [hmh, dirtyAddrOf]
      · rw [not_flags_of_valid_zero victim hz] at hb
        exact Bool.noConfusion hb
  · dsimp only at h
    simp only [Option.some.injEq, Prod.mk.injEq] at h
    obtain ⟨h1, h2⟩ := h
    subst h1; subst h2
    obtain ⟨hh, -, -⟩ := hitStep_out
      { s with
        read_accesses := s.read_accesses + (if st then 0 else 1),
        write_accesses := s.write_accesses + (if st then 1 else 0),
        bytes_read := s.bytes_read + (if st then 0 else b),
        bytes_written := s.bytes_written + (if st then b else 0),
        tag_priority := p1 } a m st
    rw [hh] at hmiss
    exact Bool.noConfusion hmiss

/-- A concrete write-back cache whose single slot holds a VALID and DIRTY
line (block address 1), used as the input of the C1 witness. -/
def dirtySlotCache : CacheSim :=
  { mkCache 1 1 8 false true true with
    tags := fun m => if m = 0 then VALID ||| DIRTY ||| 1 else 0 }

/-- C1 witness: a load miss on `dirtySlotCache` evicts the dirty line,
bumps `writebacks` from 0 to 1 and forwards the dirty address `8`. -/
theorem claim_C1_witness :
    (access dirtySlotCache 0x40 1 false).map
      (fun p => (p.1.writebacks,
        decide ((dirtyAddrOf dirtySlotCache p.2.victim, dirtySlotCache.linesz, true)
          ∈ p.2.calls))) = some (1, true) := by
  rcases hacc : access dirtySlotCache 0x40 1 false with _ | ⟨s', o⟩
  · have hsome : (access dirtySlotCache 0x40 1 false).isSome = true := by decide
    rw [hacc] at hsome
    exact absurd hsome (by simp)
  · have hhit : o.hit = false := by
      have hh : (access dirtySlotCache 0x40 1 false).map (fun p => p.2.hit) = some false := by
        decide
      rw [hacc] at hh
      simpa using hh
    have hvic : o.victim = VALID ||| DIRTY ||| 1 := by
      have hv : (access dirtySlotCache 0x40 1 false).map (fun p => p.2.victim) =
          some (VALID ||| DIRTY ||| 1) := by decide
      rw [hacc] at hv
      simpa using hv
    have hK := claim_C1 dirtySlotCache 0x40 1 false s' o rfl hacc hhit
    have hcond : o.victim &&& (VALID ||| DIRTY) = VALID ||| DIRTY := by rw [hvic]; decide
    have h1 : s'.writebacks = dirtySlotCache.writebacks + 1 := by
      have h0 := hK.1
      rw [if_pos hcond] at h0
      exact h0
    have h2 := hK.2.1 hcond rfl
    have hwb0 : dirtySlotCache.writebacks = 0 := rfl
    simp [h1, hwb0, decide_eq_true h2]

/-- Setting DIRTY does not change a tag word's DIRTY-masked comparison view. -/
theorem or_dirty_nd (v : Nat) : (v ||| DIRTY) &&& NOT_DIRTY = v &&& NOT_DIRTY := by
  apply Nat.eq_of_testBit_eq
  intro i
  have hdn : (DIRTY.testBit i && NOT_DIRTY.testBit i) = false := by
    have h0 : DIRTY &&& NOT_DIRTY = 0 := by decide
    have h1 := congrArg (fun x => Nat.testBit x i) h0
    simpa [Nat.testBit_and] using h1
  simp only [Nat.testBit_and, Nat.testBit_or]
  cases hD : DIRTY.testBit i
  · simp
  · rw [hD, Bool.true_and] at hdn
    simp [hdn]

/-- The hit handling leaves every slot's DIRTY-masked view unchanged (it at
most ORs DIRTY into the matched slot). -/
theorem hitStep_tags_nd (sx : CacheSim) (a m : Nat) (st : Bool) (j : Nat) :
    (hitStep sx a m st).1 j &&& NOT_DIRTY = sx.tags j &&& NOT_DIRTY := by
  unfold hitStep
  split
  · dsimp only
    unfold upd
    split
    · rename_i hj
      subst hj
      exact or_dirty_nd _
    · rfl
  · split <;> rfl

/-- `bumpAccess` leaves the tag array unchanged. -/
theorem bumpAccess_tags (s : CacheSim) (b : Nat) (st : Bool) :
    (bumpAccess s b st).tags = s.tags := by
  unfold bumpAccess; split <;> rfl

/-- `bumpAccess` leaves the associativity unchanged. -/
theorem bumpAccess_ways (s : CacheSim) (b : Nat) (st : Bool) :
    (bumpAccess s b st).ways = s.ways := by
  unfold bumpAccess; split <;> rfl

/-- `bumpAccess` leaves the set count unchanged. -/
theorem bumpAccess_sets (s : CacheSim) (b : Nat) (st : Bool) :
    (bumpAccess s b st).sets = s.sets := by
  unfold bumpAccess; split <;> rfl

/-- `bumpAccess` leaves the index shift unchanged. -/
theorem bumpAccess_idx_shift (s : CacheSim) (b : Nat) (st : Bool) :
    (bumpAccess s b st).idx_shift = s.idx_shift := by
  unfold bumpAccess; split <;> rfl

/-- `bumpAccess` leaves the read-miss counter unchanged. -/
theorem bumpAccess_read_misses (s : CacheSim) (b : Nat) (st : Bool) :
    (bumpAccess s b st).read_misses = s.read_misses := by
  unfold bumpAccess; split <;> rfl

/-- `bumpAccess` leaves the write-miss counter unchanged. -/
theorem bumpAccess_write_misses (s : CacheSim) (b : Nat) (st : Bool) :
    (bumpAccess s b st).write_misses = s.write_misses := by
  unfold bumpAccess; split <;> rfl

/-- If a probe hits at slot `m`, it still hits at slot `m` in any state with
the same geometry whose tag words agree under the DIRTY mask. -/
theorem check_tag_fst_congr (sA sB : CacheSim) (a m : Nat)
    (hw : sB.ways = sA.ways) (hs : sB.sets = sA.sets) (hi : sB.idx_shift = sA.idx_shift)
    (htags : ∀ j, sB.tags j &&& NOT_DIRTY = sA.tags j &&& NOT_DIRTY)
    (hA : (check_tag sA a).1 = some m) : (check_tag sB a).1 = some m := by
  have hidx : setIdx sB a = setIdx sA a := by unfold setIdx; rw [hi, hs]
  have htag : tagOf sB a = tagOf sA a := by unfold tagOf; rw [hi]
  have hfw : findWay sB (setIdx sB a) (tagOf sB a) =
      findWay sA (setIdx sA a) (tagOf sA a) := by
    rw [hidx, htag]
    unfold findWay
    rw [hw]
    congr 1
    funext j
    rw [htags]
  simp only [check_tag] at hA ⊢
  rw [hfw, hidx, hw]
  rcases hf : findWay sA (setIdx sA a) (tagOf sA a) with _ | i
  · rw [hf] at hA
    exact absurd hA (by simp)
  · rw [hf] at hA
    dsimp only at hA ⊢
    split at hA <;> split <;> simp_all

/-- C6: an access that hits leaves the cache in a state where the identical
access hits again — no miss counter moves in either access and the repeat
performs no victimization. -/
theorem claim_C6 (s : CacheSim) (a b : Nat) (st : Bool) (s1 : CacheSim) (o1 : AccessOut)
    (h : access s a b st = some (s1, o1)) (hhit : o1.hit = true) :
    ∃ s2 o2, access s1 a b st = some (s2, o2) ∧ o2.hit = true ∧ o2.victimized = false ∧
      s2.read_misses = s1.read_misses ∧ s2.write_misses = s1.write_misses ∧
      s1.read_misses = s.read_misses ∧ s1.write_misses = s.write_misses := by
  simp only [access] at h
  rw [bumpAccess_eq] at h
  rcases hct : check_tag
      { s with
        read_accesses := s.read_accesses + (if st then 0 else 1),
        write_accesses := s.write_accesses + (if st then 1 else 0),
        bytes_read := s.bytes_read + (if st then 0 else b),
        bytes_written := s.bytes_written + (if st then b else 0) } a with ⟨oi, p1⟩
  rw [hct] at h
  rcases oi with _ | m
  · dsimp only at h
    rw [bumpMiss_eq] at h
    rcases hv : victimize _ a with _ | ⟨victim, tg, pr, lf⟩ <;> rw [hv] at h
    · exact Option.noConfusion h
    dsimp only at h
    rcases hs2 : storeStep _ a st with _ | ⟨tg6, pr6, scalls⟩ <;> rw [hs2] at h
    · exact Option.noConfusion h
    dsimp only at h
    simp only [Option.some.injEq, Prod.mk.injEq] at h
    obtain ⟨h1, h2⟩ := h
    rw [← h2] at hhit
    exact Bool.noConfusion hhit
  · dsimp only at h
    simp only [Option.some.injEq, Prod.mk.injEq] at h
    obtain ⟨h1, h2⟩ := h
    subst h2
    rcases hct2 : check_tag (bumpAccess s1 b st) a with ⟨oi2, p2⟩
    have hA : (check_tag
        { s with
          read_accesses := s.read_accesses + (if st then 0 else 1),
          write_accesses := s.write_accesses + (if st then 1 else 0),
          bytes_read := s.bytes_read + (if st then 0 else b),
          bytes_written := s.bytes_written + (if st then b else 0) } a).1 = some m := by
      rw [hct]
    have hB := check_tag_fst_congr
      { s with
        read_accesses := s.read_accesses + (if st then 0 else 1),
        write_accesses := s.write_accesses + (if st then 1 else 0),
        bytes_read := s.bytes_read + (if st then 0 else b),
        bytes_written := s.bytes_written + (if st then b else 0) }
      (bumpAccess s1 b st) a m
      (by rw [bumpAccess_ways, ← h1])
      (by rw [bumpAccess_sets, ← h1])
      (by rw [bumpAccess_idx_shift, ← h1])
      (fun j => by
        rw [bumpAccess_tags, ← h1]
        exact hitStep_tags_nd
          { { s with
                read_accesses := s.read_accesses + (if st then 0 else 1),
                write_accesses := s.write_accesses + (if st then 1 else 0),
                bytes_read := s.bytes_read + (if st then 0 else b),
                bytes_written := s.bytes_written + (if st then b else 0) } with
              tag_priority := p1 } a m st j)
      hA
    have hoi2 : oi2 = some m := by rw [hct2] at hB; exact hB
    subst hoi2
    have hacc2 : access s1 a b st = some
        ({ { bumpAccess s1 b st with tag_priority := p2 } with
            tags := (hitStep { bumpAccess s1 b st with tag_priority := p2 } a m st).1 },
         (hitStep { bumpAccess s1 b st with tag_priority := p2 } a m st).2) := by
      simp only [access]
      rw [hct2]
    exact ⟨_, _, hacc2, (hitStep_out _ a m st).1, (hitStep_out _ a m st).2.1,
      bumpAccess_read_misses s1 b st, bumpAccess_write_misses s1 b st,
      by rw [← h1], by rw [← h1]⟩

/-- A concrete cache holding the VALID line for address 0, used as the input
of the C6 witness: a load of address 0 hits. -/
def hitSlotCache : CacheSim :=
  { mkCache 4 1 8 false true false with tags := fun m => if m = 0 then VALID else 0 }

/-- C6 witness: repeating the hitting load on `hitSlotCache` hits again with
no victimization. -/
theorem claim_C6_witness :
    ((access hitSlotCache 0 8 false).bind (fun p => access p.1 0 8 false)).map
      (fun p => (p.2.hit, p.2.victimized)) = some (true, false) := by
  rcases hacc : access hitSlotCache 0 8 false with _ | ⟨s1, o1⟩
  · have hsome : (access hitSlotCache 0 8 false).isSome = true := by decide
    rw [hacc] at hsome
    exact absurd hsome (by simp)
  · have hh : o1.hit = true := by
      have h0 : (access hitSlotCache 0 8 false).map (fun p => p.2.hit) = some true := by decide
      rw [hacc] at h0
      simpa using h0
    obtain ⟨s2, o2, hacc2, h2h, h2v, -, -, -, -⟩ :=
      claim_C6 hitSlotCache 0 8 false s1 o1 hacc hh
    simp [hacc2, h2h, h2v]

/-- Unfolding equation of the max-scan. -/
theorem selMax_succ (p : Nat → Nat) (base n : Nat) :
    selMax p base (n + 1) =
      if p (base + n) > (selMax p base n).1 then (p (base + n), base + n)
      else selMax p base n := rfl

/-- The slot chosen by the max-scan lies inside the scanned set. -/
theorem selMax_range (p : Nat → Nat) (base : Nat) :
    ∀ w, 1 ≤ w → ∃ i, i < w ∧ (selMax p base w).2 = base + i := by
  intro w
  induction w with
  | zero => intro h; omega
  | succ n ih =>
    intro _
    by_cases hgt : p (base + n) > (selMax p base n).1
    · exact ⟨n, by omega, by rw [selMax_succ, if_pos hgt]⟩
    · rcases n with _ | n'
      · exact ⟨0, by omega, by rw [selMax_succ, if_neg hgt]; rfl⟩
      · obtain ⟨i, hi, hsel⟩ := ih (by omega)
        exact ⟨i, by omega, by rw [selMax_succ, if_neg hgt]; exact hsel⟩

/-- The computed set index is below `sets` for a nonempty cache. -/
theorem setIdx_lt (s : CacheSim) (a : Nat) (h : 1 ≤ s.sets) : setIdx s a < s.sets := by
  unfold setIdx sub1_64
  rw [if_neg (by omega)]
  have hle : (a >>> s.idx_shift) &&& (s.sets - 1) ≤ s.sets - 1 := Nat.and_le_right
  omega

/-- A slot of a valid set lies inside the `sets*ways` allocation. -/
theorem slot_lt (idx i sets w : Nat) (hidx : idx < sets) (hi : i < w) :
    idx * w + i < sets * w := by
  have h2 : idx * w + w = (idx + 1) * w := by ring
  have h3 : (idx + 1) * w ≤ sets * w := Nat.mul_le_mul_right w (by omega)
  omega

/-- Bit view of the `~DIRTY` comparison mask. -/
theorem nd_testBit (i : Nat) :
    NOT_DIRTY.testBit i = (decide (i < 64) && !decide (i = 62)) := by
  unfold NOT_DIRTY MASK64 DIRTY
  rw [Nat.testBit_xor, Nat.testBit_two_pow_sub_one, Nat.testBit_two_pow]
  by_cases h62 : i = 62
  · subst h62; simp
  · have h62' : ¬(62 = i) := by omega
    by_cases h64 : i < 64 <;> simp [h62, h62', h64]

/-- A fresh tag word (block address without bit 62) is a fixed point of the
DIRTY-masked comparison, so the installed slot matches its own probe. -/
theorem tag_match_self (x : Nat) (hx62 : x.testBit 62 = false) (hxlt : x < 2 ^ 64) :
    (x ||| VALID) &&& NOT_DIRTY = x ||| VALID := by
  apply Nat.eq_of_testBit_eq
  intro i
  rw [Nat.testBit_and, Nat.testBit_or, nd_testBit]
  by_cases h62 : i = 62
  · subst h62
    have hv : VALID.testBit 62 = false := by decide
    simp [hx62, hv]
  · by_cases h64 : i < 64
    · simp [h62, h64]
    · have hxi : x.testBit i = false :=
        Nat.testBit_lt_two_pow (lt_of_lt_of_le hxlt (Nat.pow_le_pow_right (by norm_num) (by omega)))
      have hvi : VALID.testBit i = false := by
        unfold VALID
        rw [Nat.testBit_two_pow]
        simp
        omega
      simp [hxi, hvi, h64]

/-- A shifted 64-bit address has bit 62 clear whenever at least 3 bits were
shifted out. -/
theorem blockaddr_bit62 (a k : Nat) (ha : a < 2 ^ 64) (hk : 3 ≤ k) :
    (a >>> k).testBit 62 = false := by
  rw [Nat.testBit_shiftRight]
  apply Nat.testBit_lt_two_pow
  calc a < 2 ^ 64 := ha
    _ ≤ 2 ^ (k + 62) := Nat.pow_le_pow_right (by norm_num) (by omega)

/-- Shifting right never increases a value. -/
theorem shiftRight_le_self (a k : Nat) : a >>> k ≤ a := by
  rw [Nat.shiftRight_eq_div_pow]
  exact Nat.div_le_self _ _

/-- `victimize` succeeds on any cache with at least one set and one way, and
installs the probe's tag at a slot of the addressed set. -/
theorem victimize_total (s : CacheSim) (a : Nat) (h1 : 1 ≤ s.sets) (hw : 1 ≤ s.ways) :
    ∃ victim tg pr lf M, victimize s a = some (victim, tg, pr, lf) ∧
      tg = upd s.tags M (tagOf s a) ∧
      setIdx s a * s.ways ≤ M ∧ M < setIdx s a * s.ways + s.ways := by
  simp only [victimize]
  rcases hlru : s.lru with _ | _
  · simp only [Bool.false_eq_true, if_false]
    rw [if_neg (by omega)]
    have hmod : lfsrNext s.lfsr % s.ways < s.ways := Nat.mod_lt _ (by omega)
    rw [if_pos (slot_lt _ _ _ _ (setIdx_lt s a h1) hmod)]
    exact ⟨_, _, _, _, setIdx s a * s.ways + lfsrNext s.lfsr % s.ways,
      rfl, rfl, by omega, by omega⟩
  · simp only [if_true]
    obtain ⟨i, hi, hsel⟩ :=
      selMax_range (agePrio s.tag_priority (setIdx s a * s.ways) s.ways)
        (setIdx s a * s.ways) s.ways hw
    rw [hsel, if_pos (slot_lt _ _ _ _ (setIdx_lt s a h1) hi)]
    exact ⟨_, _, _, _, setIdx s a * s.ways + i, rfl, rfl, by omega, by omega⟩

/-- If some slot of the probed set matches, `check_tag` returns a hit. -/
theorem check_tag_some_of_match (t : CacheSim) (a j : Nat) (hj : j < t.ways)
    (hmatch : ((t.tags (setIdx t a * t.ways + j) &&& NOT_DIRTY) == tagOf t a) = true) :
    ∃ m p, check_tag t a = (some m, p) := by
  simp only [check_tag]
  rcases hf : findWay t (setIdx t a) (tagOf t a) with _ | i
  · unfold findWay at hf
    rw [List.find?_eq_none] at hf
    exact absurd hmatch (by simpa using hf j (List.mem_range.mpr hj))
  · dsimp only
    split
    · exact ⟨_, _, rfl⟩
    · exact ⟨_, _, rfl⟩

/-- The post-miss store handling always succeeds when the probed set holds a
matching slot (the re-probe cannot return null). -/
theorem storeStep_total (t : CacheSim) (a : Nat) (st : Bool) (M : Nat)
    (hM1 : setIdx t a * t.ways ≤ M) (hM2 : M < setIdx t a * t.ways + t.ways)
    (hmatch : ((t.tags M &&& NOT_DIRTY) == tagOf t a) = true) :
    ∃ r, storeStep t a st = some r := by
  unfold storeStep
  split
  · have hj : M - setIdx t a * t.ways < t.ways := by omega
    have hMeq : setIdx t a * t.ways + (M - setIdx t a * t.ways) = M := by omega
    obtain ⟨m, p, hc⟩ := check_tag_some_of_match t a (M - setIdx t a * t.ways) hj
      (by rw [hMeq]; exact hmatch)
    rw [hc]
    exact ⟨_, rfl⟩
  · split
    · exact ⟨_, rfl⟩
    · exact ⟨_, rfl⟩

/-- C5 (amended): on any cache node with at least one set and one way and an
index shift of at least 3 (every validly configured geometry has these,
except that the parser fails to enforce `ways ≥ 1`), `access` never fails
for any 64-bit address: the random modulo never divides by zero and the
step-6 re-probe always returns a slot.  The second part records what the
parser does guarantee: accepted configurations have `sets ≥ 1`,
`blocksize ≥ 8` and hence an index shift of at least 3. -/
theorem claim_C5 :
    (∀ s : CacheSim, 1 ≤ s.sets → 1 ≤ s.ways → 3 ≤ s.idx_shift →
      ∀ a, a < 2 ^ 64 → ∀ b st, (access s a b st).isSome = true) ∧
    (∀ cfg : String, ∀ c : CacheCfg, constructCfg cfg = some c →
      1 ≤ c.sets ∧ 8 ≤ c.linesz ∧ 3 ≤ idxShiftOf c.linesz) := by
  constructor
  · intro s hsets hways hshift a ha b st
    simp only [access]
    rw [bumpAccess_eq, bumpMiss_eq]
    rcases hct : check_tag
        { s with
          read_accesses := s.read_accesses + (if st then 0 else 1),
          write_accesses := s.write_accesses + (if st then 1 else 0),
          bytes_read := s.bytes_read + (if st then 0 else b),
          bytes_written := s.bytes_written + (if st then b else 0) } a with ⟨oi, p1⟩
    rcases oi with _ | m
    · dsimp only
      obtain ⟨victim, tg, pr, lf, M, hvic, htg, hM1, hM2⟩ :=
        victimize_total
          { s with
            read_accesses := s.read_accesses + (if st then 0 else 1),
            read_misses := s.read_misses + (if st then 0 else 1),
            bytes_read := s.bytes_read + (if st then 0 else b),
            write_accesses := s.write_accesses + (if st then 1 else 0),
            write_misses := s.write_misses + (if st then 1 else 0),
            bytes_written := s.bytes_written + (if st then b else 0) } a hsets hways
      rw [hvic]
      dsimp only
      have hmatch : ((tg M &&& NOT_DIRTY) == ((a >>> s.idx_shift) ||| VALID)) = true := by
        rw [htg]
        unfold upd
        rw [if_pos rfl]
        show ((tagOf _ a &&& NOT_DIRTY) == _) = true
        unfold tagOf
        dsimp only
        rw [tag_match_self (a >>> s.idx_shift) (blockaddr_bit62 a s.idx_shift ha hshift)
          (lt_of_le_of_lt (shiftRight_le_self a s.idx_shift) ha)]
        exact beq_self_eq_true _
      obtain ⟨⟨tg6, pr6, scalls⟩, hss⟩ := storeStep_total
        { s with
          read_accesses := s.read_accesses + (if st then 0 else 1),
          read_misses := s.read_misses + (if st then 0 else 1),
          bytes_read := s.bytes_read + (if st then 0 else b),
          write_accesses := s.write_accesses + (if st then 1 else 0),
          write_misses := s.write_misses + (if st then 1 else 0),
          bytes_written := s.bytes_written + (if st then b else 0),
          tags := tg, tag_priority := pr, lfsr := lf,
          writebacks := (wbStep
            { s with
              read_accesses := s.read_accesses + (if st then 0 else 1),
              read_misses := s.read_misses + (if st then 0 else 1),
              bytes_read := s.bytes_read + (if st then 0 else b),
              write_accesses := s.write_accesses + (if st then 1 else 0),
              write_misses := s.write_misses + (if st then 1 else 0),
              bytes_written := s.bytes_written + (if st then b else 0),
              tags := tg, tag_priority := pr, lfsr := lf } victim).1 }
        a st M hM1 hM2 hmatch
      rw [hss]
      rfl
    · dsimp only
      rfl
  · intro cfg c h
    have hv : validGeom c.sets c.linesz = true := by
      simp only [constructCfg] at h
      repeat' split at h
      any_goals exact Option.noConfusion h
      all_goals
        injection h with h'
        subst h'
        assumption
    unfold validGeom at hv
    simp only [Bool.and_eq_true, Bool.not_eq_true', Bool.or_eq_false_iff, beq_eq_false_iff_ne,
      bne_eq_false_iff_eq, decide_eq_false_iff_not, not_lt] at hv
    obtain ⟨⟨hs0, -⟩, hl8, -⟩ := hv
    refine ⟨by omega, hl8, ?_⟩
    have key : ∀ f : Nat, ∀ k x : Nat, x ≤ f → 2 ^ k ≤ x → k ≤ idxShiftLoop f x := by
      intro f
      induction f with
      | zero => intro k x hx hk; interval_cases x <;> simp at hk ⊢ <;> omega
      | succ n ih =>
        intro k x hx hk
        rcases k with _ | k'
        · omega
        · have hx2 : 1 < x := by
            have h2k : 2 ≤ 2 ^ (k' + 1) := by
              calc 2 = 2 ^ 1 := rfl
              _ ≤ 2 ^ (k' + 1) := Nat.pow_le_pow_right (by norm_num) (by omega)
            omega
          simp only [idxShiftLoop, if_pos hx2]
          have h1 : 2 ^ k' ≤ x >>> 1 := by
            rw [Nat.shiftRight_succ_inside]
            simp only [Nat.shiftRight_zero]
            rw [Nat.le_div_iff_mul_le (by norm_num)]
            calc 2 ^ k' * 2 = 2 ^ (k' + 1) := by ring
            _ ≤ x := hk
          have h2 : x >>> 1 ≤ n := by
            rw [Nat.shiftRight_succ_inside]
            simp only [Nat.shiftRight_zero]
            omega
          have h3 := ih k' (x >>> 1) h2 h1
          omega
    exact key c.linesz 3 c.linesz (le_refl _) hl8

/-- C5 (counterexample): the claim as stated fails because a cache with
`ways = 0` is constructible — the parser accepts `1:0:8` — and its very
first access fails (the random victim selection computes `% 0`). -/
theorem claim_C5_counterexample :
    constructCfg "1:0:8" = some ⟨false, 1, 0, 8, false⟩ ∧
    (access (mkCacheOfCfg ⟨false, 1, 0, 8, false⟩ true false) 0 0 false).isSome = false := by
  decide

/-- C5 witness: totality applied to a fresh `4:1:8` cache at address 5. -/
theorem claim_C5_witness :
    (access (mkCache 4 1 8 false true false) 5 1 true).isSome = true :=
  claim_C5.1 (mkCache 4 1 8 false true false) (by decide) (by decide) (by decide)
    5 (by decide) 1 true

/-- C9: `construct` dispatches to the fully-associative variant exactly when
`sets == 1` and `ways > 4`; in particular `1:5:8` is fully-associative and
`1:4:8` is set-associative. -/
theorem claim_C9 :
    (∀ cfg : String, ∀ c : CacheCfg, constructCfg cfg = some c →
      (c.fa = true ↔ (c.sets = 1 ∧ 4 < c.ways))) ∧
    constructCfg "1:5:8" = some ⟨true, 1, 5, 8, false⟩ ∧
    constructCfg "1:4:8" = some ⟨false, 1, 4, 8, false⟩ := by
  refine ⟨?_, by decide, by decide⟩
  intro cfg c h
  simp only [constructCfg] at h
  repeat' split at h
  any_goals exact Option.noConfusion h
  all_goals
    injection h with h'
    subst h'
    simp only [Bool.and_eq_true, decide_eq_true_eq, beq_iff_eq]
    constructor
    · rintro ⟨h4, h1⟩; exact ⟨h1, h4⟩
    · rintro ⟨h1, h4⟩; exact ⟨h4, h1⟩

/-- C9 witness: the dispatch equivalence applied at the two concrete
configurations. -/
theorem claim_C9_witness :
    ((⟨true, 1, 5, 8, false⟩ : CacheCfg).fa = true ↔
      ((⟨true, 1, 5, 8, false⟩ : CacheCfg).sets = 1 ∧ 4 < (⟨true, 1, 5, 8, false⟩ : CacheCfg).ways)) ∧
    ((⟨false, 1, 4, 8, false⟩ : CacheCfg).fa = true ↔
      ((⟨false, 1, 4, 8, false⟩ : CacheCfg).sets = 1 ∧ 4 < (⟨false, 1, 4, 8, false⟩ : CacheCfg).ways)) :=
  ⟨claim_C9.1 "1:5:8" _ (by decide), claim_C9.1 "1:4:8" _ (by decide)⟩

/-- C3 (code bug): the configuration `4:0:8` with `ways = 0` is accepted and
a cache object is produced — `init` validates `sets` and the block size but
never `ways`, contradicting the usage text's requirement that `ways` be a
positive integer. -/
theorem claim_C3_bug :
    constructCfg "4:0:8" = some ⟨false, 4, 0, 8, false⟩ := by decide

/-- C2 (counterexample): an L1 configured `4:1:8` forwards its cold load
miss at `0x100` downstream exactly once, but with `bytes = 8` (the L1's own
line size), not `bytes = 16` as the claim states. -/
theorem claim_C2_counterexample :
    constructCfg "4:1:8" = some ⟨false, 4, 1, 8, false⟩ ∧
    (access (mkCacheOfCfg ⟨false, 4, 1, 8, false⟩ true true) 0x100 8 false).map
      (fun p => p.2.calls) = some [(0x100, 8, false)] ∧
    ¬ (access (mkCacheOfCfg ⟨false, 4, 1, 8, false⟩ true true) 0x100 8 false).map
      (fun p => p.2.calls) = some [(0x100, 16, false)] := by decide

/-- C2 (amended): the single cold load miss at `0x100` on an L1 `4:1:8`
invokes the miss handler exactly once, with
`(addr = 0x100, bytes = 8, store = false)` — the fill request carries the
requesting cache's own line size. -/
theorem claim_C2 :
    constructCfg "4:1:8" = some ⟨false, 4, 1, 8, false⟩ ∧
    (access (mkCacheOfCfg ⟨false, 4, 1, 8, false⟩ true true) 0x100 8 false).map
      (fun p => p.2.calls) = some [(0x100, 8, false)] := by decide

/-- Membership in the occupied-way list. -/
theorem mem_occListA {w : Nat} {occ : Nat → Bool} {i : Nat} :
    i ∈ occListA w occ ↔ i < w ∧ occ i = true := by
  unfold occListA
  rw [List.mem_filter, List.mem_range]

/-- The occupied-way list has no duplicates. -/
theorem occListA_nodup (w : Nat) (occ : Nat → Bool) : (occListA w occ).Nodup :=
  (List.nodup_range w).filter occ

/-- At most `w` ways are occupied. -/
theorem kOf_le (w : Nat) (occ : Nat → Bool) : kOf w occ ≤ w := by
  unfold kOf occListA
  calc (List.filter occ (List.range w)).length ≤ (List.range w).length :=
        List.length_filter_le _ _
  _ = w := List.length_range w

/-- A fully-occupied set has occupancy count `w`. -/
theorem kOf_eq_w_of_all (w : Nat) (occ : Nat → Bool) (h : ∀ i, i < w → occ i = true) :
    kOf w occ = w := by
  unfold kOf occListA
  rw [List.filter_eq_self.mpr (fun a ha => h a (List.mem_range.mp ha))]
  exact List.length_range w

/-- Occupancy count `w` means every way is occupied. -/
theorem all_of_kOf_eq_w (w : Nat) (occ : Nat → Bool) (h : kOf w occ = w) :
    ∀ i, i < w → occ i = true := by
  intro i hi
  have hsub : List.Sublist ((List.range w).filter occ) (List.range w) :=
    List.filter_sublist _
  have heq : (List.range w).filter occ = List.range w := by
    apply hsub.eq_of_length
    unfold kOf occListA at h
    rw [h, List.length_range]
  have : i ∈ (List.range w).filter occ := by rw [heq]; exact List.mem_range.mpr hi
  exact (List.mem_filter.mp this).2

/-- A not-full set has an unoccupied way. -/
theorem exists_unocc_of_lt (w : Nat) (occ : Nat → Bool) (h : kOf w occ < w) :
    ∃ u, u < w ∧ occ u = false := by
  by_contra hc
  push_neg at hc
  have hall : ∀ i, i < w → occ i = true := by
    intro i hi
    rcases hb : occ i with _ | _
    · exact absurd hb (hc i hi)
    · rfl
  rw [kOf_eq_w_of_all w occ hall] at h
  exact lt_irrefl _ h

/-- Pigeonhole: distinct occupied priorities below the occupancy count hit
every value below it. -/
theorem surj_of_invA (w : Nat) (occ : Nat → Bool) (p : Nat → Nat) (hinv : invA w occ p) :
    ∀ v, v < kOf w occ → ∃ i, i ∈ occListA w occ ∧ p i = v := by
  obtain ⟨hb, hinj, -⟩ := hinv
  intro v hv
  have hnd : ((occListA w occ).map p).Nodup :=
    List.Nodup.map_on (fun x hx y hy hxy => hinj x hx y hy hxy) (occListA_nodup w occ)
  have hlen : ((occListA w occ).map p).length = kOf w occ := by
    rw [List.length_map]; rfl
  have hsub : ((occListA w occ).map p).toFinset ⊆ Finset.range (kOf w occ) := by
    intro x hx
    rw [List.mem_toFinset] at hx
    rw [Finset.mem_range]
    obtain ⟨i, hi, rfl⟩ := List.mem_map.mp hx
    exact hb i hi
  have hcard : (Finset.range (kOf w occ)).card ≤ ((occListA w occ).map p).toFinset.card := by
    rw [Finset.card_range, List.toFinset_card_of_nodup hnd, hlen]
  have heq := Finset.eq_of_subset_of_card_le hsub hcard
  have hvL : v ∈ (occListA w occ).map p := by
    rw [← List.mem_toFinset, heq, Finset.mem_range]
    exact hv
  obtain ⟨i, hi, hpi⟩ := List.mem_map.mp hvL
  exact ⟨i, hi, hpi⟩

/-- The invariant makes the occupied priorities a permutation of
`0 .. k-1`. -/
theorem perm_of_invA (w : Nat) (occ : Nat → Bool) (p : Nat → Nat) (hinv : invA w occ p) :
    ((occListA w occ).map p).Perm (List.range (kOf w occ)) := by
  have hnd : ((occListA w occ).map p).Nodup :=
    List.Nodup.map_on (fun x hx y hy hxy => hinv.2.1 x hx y hy hxy) (occListA_nodup w occ)
  rw [List.perm_ext_iff_of_nodup hnd (List.nodup_range _)]
  intro v
  constructor
  · intro hv
    obtain ⟨i, hi, rfl⟩ := List.mem_map.mp hv
    rw [List.mem_range]
    exact hinv.1 i hi
  · intro hv
    rw [List.mem_range] at hv
    obtain ⟨i, hi, hpi⟩ := surj_of_invA w occ p hinv v hv
    exact List.mem_map.mpr ⟨i, hi, hpi⟩

/-- The invariant only depends on the views below `w`. -/
theorem invA_congr (w : Nat) (occ occ' : Nat → Bool) (p p' : Nat → Nat)
    (ho : ∀ i, i < w → occ' i = occ i) (hp : ∀ i, i < w → p' i = p i)
    (h : invA w occ p) : invA w occ' p' := by
  have hocc : occListA w occ' = occListA w occ := by
    unfold occListA
    exact List.filter_congr (fun i hi => ho i (List.mem_range.mp hi))
  have hkeq : kOf w occ' = kOf w occ := by unfold kOf; rw [hocc]
  obtain ⟨hb, hinj, hun⟩ := h
  refine ⟨?_, ?_, ?_⟩
  · intro i hi
    rw [hocc] at hi
    have hiw : i < w := (mem_occListA.mp hi).1
    rw [hkeq, hp i hiw]
    exact hb i hi
  · intro i hi j hj hpij
    rw [hocc] at hi hj
    rw [hp i (mem_occListA.mp hi).1, hp j (mem_occListA.mp hj).1] at hpij
    exact hinj i hi j hj hpij
  · intro i hiw hni
    rw [hocc] at hni
    rw [hkeq, hp i hiw]
    exact hun i hiw hni

/-- Marking an element of a duplicate-free list raises the filter count by
one when it was not previously satisfying. -/
theorem filter_len_update (l : List Nat) (hnd : l.Nodup) (a : Nat) (ha : a ∈ l)
    (f : Nat → Bool) (hfa : f a = false) :
    (l.filter (fun x => if x = a then true else f x)).length = (l.filter f).length + 1 := by
  induction l with
  | nil => cases ha
  | cons hd t ih =>
    rcases List.mem_cons.mp ha with heq | hat
    · subst heq
      have hnotin : a ∉ t := (List.nodup_cons.mp hnd).1
      have htail : t.filter (fun x => if x = a then true else f x) = t.filter f :=
        List.filter_congr (fun x hx => by
          rw [if_neg (by rintro rfl; exact hnotin hx)])
      simp only [List.filter_cons, if_pos rfl, hfa]
      rw [htail]
      simp
    · have hne : hd ≠ a := by rintro rfl; exact (List.nodup_cons.mp hnd).1 hat
      have hrec := ih (List.nodup_cons.mp hnd).2 hat
      simp only [List.filter_cons, if_neg hne]
      rcases hfh : f hd with _ | _
      · simpa [hfh] using hrec
      · simp only [hfh, if_true, List.length_cons]
        omega

/-- Occupying a previously empty way raises the occupancy count by one. -/
theorem kOf_update_true (w : Nat) (occ : Nat → Bool) (i0 : Nat) (h0 : i0 < w)
    (hocc : occ i0 = false) :
    kOf w (fun i => if i = i0 then true else occ i) = kOf w occ + 1 :=
  filter_len_update (List.range w) (List.nodup_range w) i0 (List.mem_range.mpr h0) occ hocc

/-- Preservation of the set invariant under the `check_tag` hit update: the
matched occupied way gets priority 0 and every way strictly below its old
priority is aged by one. -/
theorem invA_hit (w : Nat) (occ : Nat → Bool) (p : Nat → Nat) (i0 : Nat)
    (h0 : i0 ∈ occListA w occ) (hinv : invA w occ p) :
    invA w occ (fun i => if i = i0 then 0 else if p i < p i0 then p i + 1 else p i) := by
  obtain ⟨hb, hinj, hun⟩ := hinv
  have hK1 : 0 < kOf w occ := by
    unfold kOf
    exact List.length_pos_of_mem h0
  have hP : p i0 < kOf w occ := hb i0 h0
  refine ⟨?_, ?_, ?_⟩
  · intro i hi
    simp only []
    by_cases hii : i = i0
    · rw [if_pos hii]; exact hK1
    · rw [if_neg hii]
      by_cases hlt : p i < p i0
      · rw [if_pos hlt]; omega
      · rw [if_neg hlt]; exact hb i hi
  · intro i hi j hj heq
    simp only [] at heq
    by_cases hii : i = i0 <;> by_cases hjj : j = i0
    · rw [hii, hjj]
    · rw [if_pos hii, if_neg hjj] at heq
      by_cases hlt : p j < p i0
      · rw [if_pos hlt] at heq; omega
      · rw [if_neg hlt] at heq
        exact absurd (hinj j hj i0 h0 (by omega)) hjj
    · rw [if_neg hii, if_pos hjj] at heq
      by_cases hlt : p i < p i0
      · rw [if_pos hlt] at heq; omega
      · rw [if_neg hlt] at heq
        exact absurd (hinj i hi i0 h0 (by omega)) hii
    · rw [if_neg hii, if_neg hjj] at heq
      by_cases hlt : p i < p i0 <;> by_cases hlt' : p j < p i0
      · rw [if_pos hlt, if_pos hlt'] at heq
        exact hinj i hi j hj (by omega)
      · rw [if_pos hlt, if_neg hlt'] at heq
        exact absurd (hinj j hj i0 h0 (by omega)) hjj
      · rw [if_neg hlt, if_pos hlt'] at heq
        exact absurd (hinj i hi i0 h0 (by omega)) hii
      · rw [if_neg hlt, if_neg hlt'] at heq
        exact hinj i hi j hj heq
  · intro i hiw hni
    simp only []
    have hii : i ≠ i0 := by rintro rfl; exact hni h0
    have hK := hun i hiw hni
    rw [if_neg hii, if_neg (by omega : ¬ p i < p i0)]
    exact hK

/-- Preservation of the set invariant under the LRU `victimize` install:
every way ages by one, then the way of maximal aged priority takes the new
line with priority 0.  When the set was not full the evicted way was
unoccupied. -/
theorem invA_install (w : Nat) (occ : Nat → Bool) (p : Nat → Nat) (i0 : Nat)
    (h0 : i0 < w) (hmax : ∀ j, j < w → p j ≤ p i0) (hinv : invA w occ p) :
    invA w (fun i => if i = i0 then true else occ i)
      (fun i => if i = i0 then 0 else p i + 1) ∧
    (kOf w occ < w → occ i0 = false) := by
  obtain ⟨hb, hinj, hun⟩ := hinv
  have hnotfull : kOf w occ < w → occ i0 = false := by
    intro hk
    obtain ⟨u, hu, huo⟩ := exists_unocc_of_lt w occ hk
    rcases hoc : occ i0 with _ | _
    · rfl
    · have h1 : p i0 < kOf w occ := hb i0 (mem_occListA.mpr ⟨h0, hoc⟩)
      have h2 : kOf w occ ≤ p u := hun u hu (by rw [mem_occListA]; simp [huo])
      have h3 : p u ≤ p i0 := hmax u hu
      omega
  refine ⟨?_, hnotfull⟩
  rcases hoc : occ i0 with _ | _
  · have hK' : kOf w (fun i => if i = i0 then true else occ i) = kOf w occ + 1 :=
      kOf_update_true w occ i0 h0 hoc
    refine ⟨?_, ?_, ?_⟩
    · intro i hi
      simp only []
      rw [hK']
      by_cases hii : i = i0
      · rw [if_pos hii]; omega
      · rw [if_neg hii]
        have hi' : i ∈ occListA w occ := by
          rw [mem_occListA] at hi ⊢
          rcases hi with ⟨hiw, hio⟩
          try simp only [] at hio
          rw [if_neg hii] at hio
          exact ⟨hiw, hio⟩
        have := hb i hi'
        omega
    · intro i hi j hj heq
      simp only [] at heq
      by_cases hii : i = i0 <;> by_cases hjj : j = i0
      · rw [hii, hjj]
      · rw [if_pos hii, if_neg hjj] at heq; omega
      · rw [if_neg hii, if_pos hjj] at heq; omega
      · rw [if_neg hii, if_neg hjj] at heq
        have hi' : i ∈ occListA w occ := by
          rw [mem_occListA] at hi ⊢
          refine ⟨hi.1, ?_⟩
          have h2 := hi.2
          simp only [] at h2
          rwa [if_neg hii] at h2
        have hj' : j ∈ occListA w occ := by
          rw [mem_occListA] at hj ⊢
          refine ⟨hj.1, ?_⟩
          have h2 := hj.2
          simp only [] at h2
          rwa [if_neg hjj] at h2
        exact hinj i hi' j hj' (by omega)
    · intro i hiw hni
      simp only []
      have hii : i ≠ i0 := by
        rintro rfl
        exact hni (mem_occListA.mpr ⟨hiw, by simp⟩)
      rw [if_neg hii, hK']
      have hni' : i ∉ occListA w occ := by
        intro hmem
        apply hni
        rw [mem_occListA] at hmem ⊢
        exact ⟨hmem.1, by
          have h2 := hmem.2
          try simp only [] at h2
          rw [if_neg hii]
          exact h2⟩
      have := hun i hiw hni'
      omega
  · have hK : kOf w occ = w := by
      by_contra hk
      have hlt : kOf w occ < w := lt_of_le_of_ne (kOf_le w occ) hk
      rw [hnotfull hlt] at hoc
      exact Bool.noConfusion hoc
    have hocc' : occListA w (fun i => if i = i0 then true else occ i) = occListA w occ := by
      unfold occListA
      apply List.filter_congr
      intro x hx
      by_cases hxx : x = i0
      · rw [if_pos hxx, hxx, hoc]
      · rw [if_neg hxx]
    have hK'eq : kOf w (fun i => if i = i0 then true else occ i) = kOf w occ := by
      unfold kOf
      rw [hocc']
    have hi0mem : i0 ∈ occListA w occ := mem_occListA.mpr ⟨h0, hoc⟩
    have hPmax : p i0 = w - 1 := by
      have h1 : p i0 < w := by have := hb i0 hi0mem; omega
      obtain ⟨im, him, hpim⟩ :=
        surj_of_invA w occ p ⟨hb, hinj, hun⟩ (w - 1) (by omega)
      have h2 := hmax im (mem_occListA.mp him).1
      omega
    refine ⟨?_, ?_, ?_⟩
    · intro i hi
      simp only []
      rw [hK'eq, hocc'] at *
      by_cases hii : i = i0
      · rw [if_pos hii]; omega
      · rw [if_neg hii]
        have h1 := hb i hi
        have h2 : p i ≠ w - 1 := by
          intro heq
          exact hii (hinj i hi i0 hi0mem (by omega))
        omega
    · intro i hi j hj heq
      simp only [] at heq
      rw [hocc'] at hi hj
      by_cases hii : i = i0 <;> by_cases hjj : j = i0
      · rw [hii, hjj]
      · rw [if_pos hii, if_neg hjj] at heq; omega
      · rw [if_neg hii, if_pos hjj] at heq; omega
      · rw [if_neg hii, if_neg hjj] at heq
        exact hinj i hi j hj (by omega)
    · intro i hiw hni
      exfalso
      apply hni
      rw [hocc', mem_occListA]
      exact ⟨hiw, all_of_kOf_eq_w w occ hK i hiw⟩

/-- A slot whose masked word equals a probe tag carries VALID. -/
theorem isValid_of_match (v x : Nat)
    (h : ((v &&& NOT_DIRTY) == (x ||| VALID)) = true) : isValid v = true := by
  rw [beq_iff_eq] at h
  have h63 := congrArg (fun y => Nat.testBit y 63) h
  have hnd63 : NOT_DIRTY.testBit 63 = true := by decide
  have hv63 : VALID.testBit 63 = true := by decide
  simp only [Nat.testBit_and, Nat.testBit_or, hnd63, hv63, Bool.and_true, Bool.or_true] at h63
  unfold isValid
  rw [bne_iff_ne]
  intro h0
  have hb := congrArg (fun y => Nat.testBit y 63) h0
  simp only [Nat.testBit_and, hv63, Bool.and_true, Nat.zero_testBit] at hb
  rw [h63] at hb
  exact Bool.noConfusion hb

/-- Setting DIRTY does not change occupancy. -/
theorem isValid_or_dirty (v : Nat) : isValid (v ||| DIRTY) = isValid v := by
  have hand : (v ||| DIRTY) &&& VALID = v &&& VALID := by
    apply Nat.eq_of_testBit_eq
    intro i
    simp only [Nat.testBit_and, Nat.testBit_or]
    have hDV : (DIRTY.testBit i && VALID.testBit i) = false := by
      have h0 : DIRTY &&& VALID = 0 := by decide
      have h1 := congrArg (fun y => Nat.testBit y i) h0
      simpa [Nat.testBit_and] using h1
    cases hD : DIRTY.testBit i
    · simp
    · rw [hD, Bool.true_and] at hDV
      simp [hDV]
  unfold isValid
  rw [hand]

/-- A freshly installed tag word is VALID. -/
theorem isValid_tagOf (x : Nat) : isValid (x ||| VALID) = true := by
  unfold isValid
  rw [bne_iff_ne]
  intro h0
  have hb := congrArg (fun y => Nat.testBit y 63) h0
  have hv63 : VALID.testBit 63 = true := by decide
  simp only [Nat.testBit_and, Nat.testBit_or, hv63, Bool.and_true, Bool.or_true,
    Nat.zero_testBit] at hb
  exact Bool.noConfusion hb

/-- A non-VALID word has a zero VALID mask. -/
theorem and_valid_eq_zero (v : Nat) (h : isValid v = false) : v &&& VALID = 0 := by
  unfold isValid at h
  exact bne_eq_false_iff_eq.mp h

/-- Slots of different sets do not overlap. -/
theorem slot_notin_other (idx idx0 i w : Nat) (hi : i < w) (hne : idx ≠ idx0) :
    ¬(idx0 * w ≤ idx * w + i ∧ idx * w + i < idx0 * w + w) := by
  rintro ⟨h1, h2⟩
  rcases Nat.lt_or_ge idx idx0 with hlt | hge
  · have hm : (idx + 1) * w ≤ idx0 * w := Nat.mul_le_mul_right w hlt
    have he : idx * w + w = (idx + 1) * w := by ring
    omega
  · have hgt : idx0 < idx := lt_of_le_of_ne hge (Ne.symm hne)
    have hm : (idx0 + 1) * w ≤ idx * w := Nat.mul_le_mul_right w hgt
    have he : idx0 * w + w = (idx0 + 1) * w := by ring
    omega

/-- The max-scan selects a way whose priority dominates the whole set, once
all scanned priorities are positive. -/
theorem selMax_max (p : Nat → Nat) (base : Nat) :
    ∀ w, 1 ≤ w → (∀ j, j < w → 1 ≤ p (base + j)) →
    ∃ i, i < w ∧ selMax p base w = (p (base + i), base + i) ∧
      (∀ j, j < w → p (base + j) ≤ p (base + i)) := by
  intro w
  induction w with
  | zero => intro h; omega
  | succ n ih =>
    intro _ hpos
    rcases n with _ | n'
    · refine ⟨0, by omega, ?_, ?_⟩
      · rw [selMax_succ]
        rw [if_pos (by have := hpos 0 (by omega); simpa [selMax] using this)]
      · intro j hj
        have hj0 : j = 0 := by omega
        rw [hj0]
    · obtain ⟨i, hi, heq, hmax⟩ := ih (by omega) (fun j hj => hpos j (by omega))
      by_cases hgt : p (base + (n' + 1)) > (selMax p base (n' + 1)).1
      · refine ⟨n' + 1, by omega, ?_, ?_⟩
        · rw [selMax_succ, if_pos hgt]
        · intro j hj
          rw [heq] at hgt
          simp only [] at hgt
          by_cases hj1 : j = n' + 1
          · rw [hj1]
          · have := hmax j (by omega)
            omega
      · refine ⟨i, by omega, ?_, ?_⟩
        · rw [selMax_succ, if_neg hgt]
          exact heq
        · intro j hj
          rw [heq] at hgt
          simp only [] at hgt
          by_cases hj1 : j = n' + 1
          · subst hj1
            omega
          · exact hmax j (by omega)

/-- Characterization of a hit probe on an LRU cache: the returned slot is a
VALID way of the addressed set and the returned priority array is the hit
update centred on it. -/
theorem check_tag_hit_char (t : CacheSim) (a m : Nat) (p5 : Nat → Nat)
    (hlru : t.lru = true) (hct : check_tag t a = (some m, p5)) :
    ∃ i0, i0 < t.ways ∧ m = setIdx t a * t.ways + i0 ∧
      isValid (t.tags m) = true ∧
      p5 = hitPrio t.tag_priority (setIdx t a * t.ways) t.ways m := by
  simp only [check_tag] at hct
  rcases hf : findWay t (setIdx t a) (tagOf t a) with _ | i <;> rw [hf] at hct
  · exact absurd hct (by simp)
  · rw [hlru] at hct
    simp only [if_true] at hct
    rw [Prod.mk.injEq] at hct
    obtain ⟨h1, h2⟩ := hct
    injection h1 with h1
    unfold findWay at hf
    have hiw : i < t.ways := List.mem_range.mp (List.mem_of_find?_eq_some hf)
    have hpred := List.find?_some hf
    have hval : isValid (t.tags (setIdx t a * t.ways + i)) = true := by
      apply isValid_of_match _ (a >>> t.idx_shift)
      simpa [tagOf] using hpred
    refine ⟨i, hiw, h1.symm, ?_, ?_⟩
    · rw [← h1]
      exact hval
    · rw [← h1]
      exact h2.symm

/-- The LRU hit update of `check_tag` preserves the per-set invariant. -/
theorem lruInv_hitPrio (t : CacheSim) (a i0 : Nat) (h0 : i0 < t.ways)
    (hocc : isValid (t.tags (setIdx t a * t.ways + i0)) = true)
    (hinv : lruInv t) :
    lruInv { t with
      tag_priority := hitPrio t.tag_priority (setIdx t a * t.ways) t.ways
        (setIdx t a * t.ways + i0) } := by
  intro idx hidx
  by_cases hset : idx = setIdx t a
  · subst hset
    refine invA_congr t.ways (setOcc t (setIdx t a)) _
      (fun i => if i = i0 then 0 else
        if setPrio t (setIdx t a) i < setPrio t (setIdx t a) i0 then
          setPrio t (setIdx t a) i + 1
        else setPrio t (setIdx t a) i) _
      (fun i hi => rfl) ?_
      (invA_hit t.ways (setOcc t (setIdx t a)) (setPrio t (setIdx t a)) i0
        (mem_occListA.mpr ⟨h0, hocc⟩) (hinv (setIdx t a) hidx))
    intro i hi
    show hitPrio t.tag_priority (setIdx t a * t.ways) t.ways
        (setIdx t a * t.ways + i0) (setIdx t a * t.ways + i) =
      if i = i0 then 0 else
        if t.tag_priority (setIdx t a * t.ways + i) <
            t.tag_priority (setIdx t a * t.ways + i0) then
          t.tag_priority (setIdx t a * t.ways + i) + 1
        else t.tag_priority (setIdx t a * t.ways + i)
    unfold hitPrio
    by_cases hii : i = i0
    · subst hii
      simp
    · rw [if_neg (fun hh => hii (Nat.add_left_cancel hh)), if_neg hii]
      by_cases hlt : t.tag_priority (setIdx t a * t.ways + i) <
          t.tag_priority (setIdx t a * t.ways + i0)
      · rw [if_pos ⟨Nat.le_add_right _ _, by omega, hlt⟩, if_pos hlt]
      · rw [if_neg (by rintro ⟨-, -, hc⟩; exact hlt hc), if_neg hlt]
  · refine invA_congr t.ways (setOcc t idx) _ (setPrio t idx) _
      (fun i hi => rfl) ?_ (hinv idx hidx)
    intro i hi
    show hitPrio t.tag_priority (setIdx t a * t.ways) t.ways
        (setIdx t a * t.ways + i0) (idx * t.ways + i) = setPrio t idx i
    unfold hitPrio
    have hwin := slot_notin_other idx (setIdx t a) i t.ways hi hset
    have hm : idx * t.ways + i ≠ setIdx t a * t.ways + i0 := by
      intro hh
      exact hwin (by rw [hh]; exact ⟨Nat.le_add_right _ _, by omega⟩)
    rw [if_neg hm, if_neg (by rintro ⟨hc1, hc2, -⟩; exact hwin ⟨hc1, hc2⟩)]
    rfl

/-- Setting DIRTY on any slot preserves the LRU invariant. -/
theorem lruInv_orDirty (t : CacheSim) (m0 : Nat) (hinv : lruInv t) :
    lruInv { t with tags := upd t.tags m0 (t.tags m0 ||| DIRTY) } := by
  intro idx hidx
  refine invA_congr t.ways (setOcc t idx) _ (setPrio t idx) _ ?_
    (fun i hi => rfl) (hinv idx hidx)
  intro i hi
  show isValid (upd t.tags m0 (t.tags m0 ||| DIRTY) (idx * t.ways + i)) = setOcc t idx i
  unfold upd
  by_cases hm : idx * t.ways + i = m0
  · rw [if_pos hm, isValid_or_dirty]
    show isValid (t.tags m0) = isValid (t.tags (idx * t.ways + i))
    rw [hm]
  · rw [if_neg hm]
    rfl

/-- The two shapes `hitStep` can leave the tag array in. -/
theorem hitStep_tags_cases (t : CacheSim) (a m : Nat) (st : Bool) :
    (hitStep t a m st).1 = upd t.tags m (t.tags m ||| DIRTY) ∨
    (hitStep t a m st).1 = t.tags := by
  unfold hitStep
  split
  · exact Or.inl rfl
  · split <;> exact Or.inr rfl

/-- Characterization of a successful LRU victimization: the evicted slot is
the way of the addressed set whose (pre-aging) priority is maximal, the new
arrays are the corresponding updates, the set index is in range and the
geometry is nondegenerate. -/
theorem victimize_lru_char (t : CacheSim) (a victim : Nat) (tg pr : Nat → Nat) (lf : Nat)
    (hlru : t.lru = true)
    (hv : victimize t a = some (victim, tg, pr, lf)) :
    ∃ i0, i0 < t.ways ∧ setIdx t a < t.sets ∧
      victim = t.tags (setIdx t a * t.ways + i0) ∧
      tg = upd t.tags (setIdx t a * t.ways + i0) (tagOf t a) ∧
      pr = upd (agePrio t.tag_priority (setIdx t a * t.ways) t.ways)
        (setIdx t a * t.ways + i0) 0 ∧
      (∀ j, j < t.ways →
        t.tag_priority (setIdx t a * t.ways + j) ≤ t.tag_priority (setIdx t a * t.ways + i0)) := by
  simp only [victimize] at hv
  rw [hlru] at hv
  simp only [if_true] at hv
  by_cases hw : 1 ≤ t.ways
  · obtain ⟨i0, hi0, heq, hmax⟩ := selMax_max
      (agePrio t.tag_priority (setIdx t a * t.ways) t.ways) (setIdx t a * t.ways) t.ways hw
      (by
        intro j hj
        unfold agePrio
        rw [if_pos ⟨Nat.le_add_right _ _, by omega⟩]
        omega)
    rw [heq] at hv
    simp only [] at hv
    split at hv
    · rename_i hlt
      simp only [Option.some.injEq, Prod.mk.injEq] at hv
      obtain ⟨h1, h2, h3, h4⟩ := hv
      refine ⟨i0, hi0, ?_, h1.symm, h2.symm, h3.symm, ?_⟩
      · have hm : setIdx t a * t.ways < t.sets * t.ways := by omega
        exact Nat.lt_of_mul_lt_mul_right hm
      · intro j hj
        have := hmax j hj
        unfold agePrio at this
        rw [if_pos ⟨Nat.le_add_right _ _, by omega⟩,
          if_pos ⟨Nat.le_add_right _ _, by omega⟩] at this
        omega
    · exact Option.noConfusion hv
  · have hw0 : t.ways = 0 := by omega
    rw [hw0] at hv
    simp only [selMax] at hv
    rw [Nat.mul_zero] at hv
    simp at hv

/-- A successful victimization on an LRU cache preserves the invariant, and
when the addressed set is not full the victim slot was unoccupied, so the
returned victim word has no VALID bit. -/
theorem lruInv_victimize (t : CacheSim) (a victim : Nat) (tg pr : Nat → Nat) (lf : Nat)
    (hlru : t.lru = true) (hinv : lruInv t)
    (hv : victimize t a = some (victim, tg, pr, lf)) :
    lruInv { t with tags := tg, tag_priority := pr, lfsr := lf } ∧
    (kOf t.ways (setOcc t (setIdx t a)) < t.ways → victim &&& VALID = 0) := by
  obtain ⟨i0, hi0, hsa, hvic, htg, hpr, hmax⟩ := victimize_lru_char t a victim tg pr lf hlru hv
  subst htg hpr hvic
  have hins := invA_install t.ways (setOcc t (setIdx t a)) (setPrio t (setIdx t a)) i0 hi0
    (fun j hj => hmax j hj) (hinv (setIdx t a) hsa)
  constructor
  · intro idx hidx
    by_cases hset : idx = setIdx t a
    · subst hset
      refine invA_congr t.ways _ _ _ _ ?_ ?_ hins.1
      · intro i hi
        show isValid (upd t.tags (setIdx t a * t.ways + i0) (tagOf t a)
            (setIdx t a * t.ways + i)) =
          if i = i0 then true else isValid (t.tags (setIdx t a * t.ways + i))
        unfold upd
        by_cases hii : i = i0
        · rw [if_pos (show setIdx t a * t.ways + i = setIdx t a * t.ways + i0 by rw [hii]),
            if_pos hii]
          exact isValid_tagOf _
        · rw [if_neg (fun hh => hii (Nat.add_left_cancel hh)), if_neg hii]
      · intro i hi
        show upd (agePrio t.tag_priority (setIdx t a * t.ways) t.ways)
            (setIdx t a * t.ways + i0) 0 (setIdx t a * t.ways + i) =
          if i = i0 then 0 else t.tag_priority (setIdx t a * t.ways + i) + 1
        unfold upd
        by_cases hii : i = i0
        · rw [if_pos (show setIdx t a * t.ways + i = setIdx t a * t.ways + i0 by rw [hii]),
            if_pos hii]
        · rw [if_neg (fun hh => hii (Nat.add_left_cancel hh)), if_neg hii]
          unfold agePrio
          rw [if_pos ⟨Nat.le_add_right _ _, by omega⟩]
    · refine invA_congr t.ways (setOcc t idx) _ (setPrio t idx) _ ?_ ?_ (hinv idx hidx)
      · intro i hi
        have hwin := slot_notin_other idx (setIdx t a) i t.ways hi hset
        have hm : idx * t.ways + i ≠ setIdx t a * t.ways + i0 := by
          intro hh
          exact hwin (by rw [hh]; exact ⟨Nat.le_add_right _ _, by omega⟩)
        show isValid (upd t.tags (setIdx t a * t.ways + i0) (tagOf t a) (idx * t.ways + i)) = _
        unfold upd
        rw [if_neg hm]
        rfl
      · intro i hi
        have hwin := slot_notin_other idx (setIdx t a) i t.ways hi hset
        have hm : idx * t.ways + i ≠ setIdx t a * t.ways + i0 := by
          intro hh
          exact hwin (by rw [hh]; exact ⟨Nat.le_add_right _ _, by omega⟩)
        show upd (agePrio t.tag_priority (setIdx t a * t.ways) t.ways)
            (setIdx t a * t.ways + i0) 0 (idx * t.ways + i) = _
        unfold upd agePrio
        rw [if_neg hm, if_neg (by rintro ⟨hc1, hc2⟩; exact hwin ⟨hc1, hc2⟩)]
        rfl
  · intro hk
    have hocc0 : setOcc t (setIdx t a) i0 = false := hins.2 hk
    exact and_valid_eq_zero _ hocc0

/-- The two shapes `storeStep` can leave the tag and priority arrays in. -/
theorem storeStep_state_cases (t : CacheSim) (a : Nat) (st : Bool) (tg6 pr6 : Nat → Nat)
    (cs : List (Nat × Nat × Bool)) (h : storeStep t a st = some (tg6, pr6, cs)) :
    (tg6 = t.tags ∧ pr6 = t.tag_priority) ∨
    ∃ m2, check_tag t a = (some m2, pr6) ∧ tg6 = upd t.tags m2 (t.tags m2 ||| DIRTY) := by
  unfold storeStep at h
  split at h
  · rcases hc : check_tag t a with ⟨oi, p5⟩
    rw [hc] at h
    rcases oi with _ | m2
    · exact Option.noConfusion h
    · dsimp only at h
      simp only [Option.some.injEq, Prod.mk.injEq] at h
      right
      refine ⟨m2, ?_, h.1.symm⟩
      rw [h.2.1]
  · split at h
    all_goals
      simp only [Option.some.injEq, Prod.mk.injEq] at h
      exact Or.inl ⟨h.1.symm, h.2.1.symm⟩

/-- `hitStep` preserves the LRU invariant of the state whose tags it
rewrites. -/
theorem lruInv_hitStep (t : CacheSim) (a m : Nat) (st : Bool) (hinv : lruInv t) :
    lruInv { t with tags := (hitStep t a m st).1 } := by
  rcases hitStep_tags_cases t a m st with hcase | hcase <;> rw [hcase]
  · exact lruInv_orDirty t m hinv
  · exact hinv

/-- A successful `storeStep` on an LRU cache preserves the invariant. -/
theorem lruInv_storeStep (t : CacheSim) (a : Nat) (st : Bool) (tg6 pr6 : Nat → Nat)
    (cs : List (Nat × Nat × Bool)) (hlru : t.lru = true) (hinv : lruInv t)
    (hs : storeStep t a st = some (tg6, pr6, cs)) :
    lruInv { t with tags := tg6, tag_priority := pr6 } := by
  rcases storeStep_state_cases t a st tg6 pr6 cs hs with ⟨ht6, hp6⟩ | ⟨m2, hct2, ht6⟩
  · rw [ht6, hp6]
    exact hinv
  · obtain ⟨i2, hi2, hm2, hocc2, hp5⟩ := check_tag_hit_char t a m2 pr6 hlru hct2
    subst hm2
    subst ht6
    subst hp5
    have hinv4 := lruInv_hitPrio t a i2 hi2 hocc2 hinv
    exact lruInv_orDirty
      { t with
        tag_priority := hitPrio t.tag_priority (setIdx t a * t.ways) t.ways
          (setIdx t a * t.ways + i2) }
      (setIdx t a * t.ways + i2) hinv4

/-- A completed access never changes the configuration fields. -/
theorem access_geom (s : CacheSim) (a b : Nat) (st : Bool) (s' : CacheSim)
    (o : AccessOut) (h : access s a b st = some (s', o)) :
    s'.sets = s.sets ∧ s'.ways = s.ways ∧ s'.linesz = s.linesz ∧ s'.lru = s.lru ∧
    s'.wb = s.wb ∧ s'.idx_shift = s.idx_shift ∧ s'.has_miss_handler = s.has_miss_handler := by
  simp only [access] at h
  rw [bumpAccess_eq] at h
  rcases hct : check_tag
      { s with
        read_accesses := s.read_accesses + (if st then 0 else 1),
        write_accesses := s.write_accesses + (if st then 1 else 0),
        bytes_read := s.bytes_read + (if st then 0 else b),
        bytes_written := s.bytes_written + (if st then b else 0) } a with ⟨oi, p1⟩
  rw [hct] at h
  rcases oi with _ | m
  · dsimp only at h
    rw [bumpMiss_eq] at h
    rcases hv : victimize _ a with _ | ⟨victim, tg, pr, lf⟩ <;> rw [hv] at h
    · exact Option.noConfusion h
    dsimp only at h
    rcases hs : storeStep _ a st with _ | ⟨tg6, pr6, scalls⟩ <;> rw [hs] at h
    · exact Option.noConfusion h
    dsimp only at h
    simp only [Option.some.injEq, Prod.mk.injEq] at h
    obtain ⟨h1, -⟩ := h
    subst h1
    exact ⟨rfl, rfl, rfl, rfl, rfl, rfl, rfl⟩
  · dsimp only at h
    simp only [Option.some.injEq, Prod.mk.injEq] at h
    obtain ⟨h1, -⟩ := h
    subst h1
    exact ⟨rfl, rfl, rfl, rfl, rfl, rfl, rfl⟩

/-- A completed access on an LRU cache preserves the invariant. -/
theorem lruInv_access (s : CacheSim) (a b : Nat) (st : Bool) (s' : CacheSim)
    (o : AccessOut) (hlru : s.lru = true) (hinv : lruInv s)
    (h : access s a b st = some (s', o)) : lruInv s' := by
  simp only [access] at h
  rw [bumpAccess_eq] at h
  rcases hct : check_tag
      { s with
        read_accesses := s.read_accesses + (if st then 0 else 1),
        write_accesses := s.write_accesses + (if st then 1 else 0),
        bytes_read := s.bytes_read + (if st then 0 else b),
        bytes_written := s.bytes_written + (if st then b else 0) } a with ⟨oi, p1⟩
  rw [hct] at h
  rcases oi with _ | m
  · dsimp only at h
    rw [bumpMiss_eq] at h
    rcases hv : victimize _ a with _ | ⟨victim, tg, pr, lf⟩ <;> rw [hv] at h
    · exact Option.noConfusion h
    dsimp only at h
    rcases hs : storeStep _ a st with _ | ⟨tg6, pr6, scalls⟩ <;> rw [hs] at h
    · exact Option.noConfusion h
    dsimp only at h
    simp only [Option.some.injEq, Prod.mk.injEq] at h
    obtain ⟨h1, -⟩ := h
    have hinv3 := (lruInv_victimize _ a victim tg pr lf (by exact hlru)
      (by intro idx hidx; exact hinv idx hidx) hv).1
    subst h1
    have hres := lruInv_storeStep _ a st tg6 pr6 scalls (by exact hlru)
      (by intro idx hidx; exact hinv3 idx hidx) hs
    exact hres
  · dsimp only at h
    simp only [Option.some.injEq, Prod.mk.injEq] at h
    obtain ⟨h1, -⟩ := h
    obtain ⟨i0, hi0, hm, hocc, hp1⟩ := check_tag_hit_char _ a m p1 (by exact hlru) hct
    subst hm
    subst hp1
    subst h1
    have hinv1 := lruInv_hitPrio _ a i0 hi0 hocc
      (by intro idx hidx; exact hinv idx hidx)
    have hres := lruInv_hitStep _ a (setIdx s a * s.ways + i0) st hinv1
    exact hres

/-- A fresh cache satisfies the LRU invariant (all slots empty). -/
theorem lruInv_mkCache (sets ways linesz : Nat) (lru wb mh : Bool) :
    lruInv (mkCache sets ways linesz lru wb mh) := by
  intro idx hidx
  have hk : kOf (mkCache sets ways linesz lru wb mh).ways
      (setOcc (mkCache sets ways linesz lru wb mh) idx) = 0 := by
    unfold kOf occListA
    rw [List.length_eq_zero]
    refine List.filter_eq_nil.mpr ?_
    intro x hx hc
    have h2 : isValid 0 = true := hc
    exact absurd h2 (by decide)
  refine ⟨?_, ?_, ?_⟩
  · intro i hi
    have h2 : isValid 0 = true := (mem_occListA.mp hi).2
    exact absurd h2 (by decide)
  · intro i hi
    have h2 : isValid 0 = true := (mem_occListA.mp hi).2
    exact absurd h2 (by decide)
  · intro i hiw hni
    rw [hk]
    exact Nat.zero_le _

/-- The LRU invariant holds along every completed run, and the replacement
policy and geometry persist. -/
theorem lruInv_run (l : List (Nat × Nat × Bool)) :
    ∀ s s', run s l = some s' → s.lru = true → lruInv s →
    lruInv s' ∧ s'.lru = true := by
  induction l with
  | nil =>
    intro s s' h hlru hinv
    simp only [run, Option.some.injEq] at h
    subst h
    exact ⟨hinv, hlru⟩
  | cons x rest ih =>
    intro s s' h hlru hinv
    rcases x with ⟨a, b, st⟩
    simp only [run] at h
    rcases hacc : access s a b st with _ | ⟨s1, o⟩ <;> rw [hacc] at h
    · exact Option.noConfusion h
    · have hgeom := access_geom s a b st s1 o hacc
      exact ih s1 s' h (by rw [hgeom.2.2.2.1]; exact hlru)
        (lruInv_access s a b st s1 o hlru hinv hacc)

/-- C4: in an LRU cache, after every completed run of accesses from a fresh
cache, within every set the priorities of the occupied (VALID) slots form a
permutation of `{0, ..., k-1}` where `k` is the number of occupied slots of
that set, and no two occupied slots of a set share a priority. -/
theorem claim_C4 (sets ways linesz : Nat) (wb mh : Bool) (l : List (Nat × Nat × Bool))
    (s' : CacheSim) (hrun : run (mkCache sets ways linesz true wb mh) l = some s') :
    ∀ idx, idx < s'.sets →
      ((occListA s'.ways (setOcc s' idx)).map (setPrio s' idx)).Perm
        (List.range (kOf s'.ways (setOcc s' idx))) ∧
      (∀ i ∈ occListA s'.ways (setOcc s' idx), ∀ j ∈ occListA s'.ways (setOcc s' idx),
        setPrio s' idx i = setPrio s' idx j → i = j) := by
  obtain ⟨hinv, -⟩ := lruInv_run l (mkCache sets ways linesz true wb mh) s' hrun rfl
    (lruInv_mkCache sets ways linesz true wb mh)
  intro idx hidx
  exact ⟨perm_of_invA s'.ways (setOcc s' idx) (setPrio s' idx) (hinv idx hidx),
    (hinv idx hidx).2.1⟩

/-- Witness for C4: a 2-set 2-way LRU write-back cache after a load, a store
to the other line of set 0 and a repeat load; the occupied priorities of
set 0 are a permutation of `{0, 1}`. -/
theorem claim_C4_witness :
    ((run (mkCache 2 2 8 true true false) [(0, 1, false), (64, 1, true), (0, 1, false)]).map
      (fun t => decide (((occListA t.ways (setOcc t 0)).map (setPrio t 0)).Perm
        (List.range (kOf t.ways (setOcc t 0)))))) = some true := by
  rcases hrun : run (mkCache 2 2 8 true true false)
      [(0, 1, false), (64, 1, true), (0, 1, false)] with _ | t
  · have hsome : (run (mkCache 2 2 8 true true false)
        [(0, 1, false), (64, 1, true), (0, 1, false)]).isSome = true := by decide
    rw [hrun] at hsome
    exact Bool.noConfusion hsome
  · have hsets : (run (mkCache 2 2 8 true true false)
        [(0, 1, false), (64, 1, true), (0, 1, false)]).map (fun u => u.sets) = some 2 := by
      decide
    rw [hrun] at hsets
    simp at hsets
    have hperm := (claim_C4 2 2 8 true false [(0, 1, false), (64, 1, true), (0, 1, false)]
      t hrun 0 (by omega)).1
    simp [decide_eq_true hperm]

/-- C10: after every completed run of an LRU cache from a fresh state, in
every set each unoccupied (non-VALID) slot has strictly higher priority
than every occupied slot; consequently, whenever the addressed set is not
full, `victimize` picks a slot whose old word has no VALID bit — it
installs into an empty slot and never evicts a VALID line. -/
theorem claim_C10 (sets ways linesz : Nat) (wb mh : Bool) (l : List (Nat × Nat × Bool))
    (s' : CacheSim) (hrun : run (mkCache sets ways linesz true wb mh) l = some s') :
    (∀ idx, idx < s'.sets → ∀ i j, i < s'.ways → j < s'.ways →
      isValid (s'.tags (idx * s'.ways + i)) = true →
      isValid (s'.tags (idx * s'.ways + j)) = false →
      setPrio s' idx i < setPrio s' idx j) ∧
    (∀ a victim tg pr lf, victimize s' a = some (victim, tg, pr, lf) →
      kOf s'.ways (setOcc s' (setIdx s' a)) < s'.ways → victim &&& VALID = 0) := by
  obtain ⟨hinv, hlru⟩ := lruInv_run l (mkCache sets ways linesz true wb mh) s' hrun rfl
    (lruInv_mkCache sets ways linesz true wb mh)
  constructor
  · intro idx hidx i j hi hj hocci hoccj
    obtain ⟨hb, hinj, hun⟩ := hinv idx hidx
    have h1 : setPrio s' idx i < kOf s'.ways (setOcc s' idx) :=
      hb i (mem_occListA.mpr ⟨hi, hocci⟩)
    have h2 : kOf s'.ways (setOcc s' idx) ≤ setPrio s' idx j := by
      apply hun j hj
      intro hmem
      have h3 : isValid (s'.tags (idx * s'.ways + j)) = true := (mem_occListA.mp hmem).2
      rw [hoccj] at h3
      exact Bool.noConfusion h3
    omega
  · intro a victim tg pr lf hv hk
    exact (lruInv_victimize s' a victim tg pr lf hlru hinv hv).2 hk

/-- Witness for C10: after one load into a 2-set 2-way LRU cache, set 0
holds one line; victimizing another address of set 0 returns a victim word
with no VALID bit. -/
theorem claim_C10_witness :
    ((run (mkCache 2 2 8 true true false) [(0, 1, false)]).bind
      (fun t => (victimize t 64).map (fun q => q.1 &&& VALID))) = some 0 := by
  rcases hrun : run (mkCache 2 2 8 true true false) [(0, 1, false)] with _ | t
  · have hsome : (run (mkCache 2 2 8 true true false) [(0, 1, false)]).isSome = true := by
      decide
    rw [hrun] at hsome
    exact Bool.noConfusion hsome
  · rcases hv : victimize t 64 with _ | ⟨victim, tg, pr, lf⟩
    · have hsome2 : ((run (mkCache 2 2 8 true true false) [(0, 1, false)]).bind
          (fun u => (victimize u 64).map (fun q => q.1 &&& VALID))).isSome = true := by
        decide
      rw [hrun] at hsome2
      simp [hv] at hsome2
    · have hk : (run (mkCache 2 2 8 true true false) [(0, 1, false)]).map
          (fun u => decide (kOf u.ways (setOcc u (setIdx u 64)) < u.ways)) = some true := by
        decide
      rw [hrun] at hk
      simp at hk
      have h0 := (claim_C10 2 2 8 true false [(0, 1, false)] t hrun).2 64 victim tg pr lf hv hk
      simp [hv, h0]

/-- Keys after a map insertion: the inserted key plus the old keys. -/
theorem keysOf_insertSorted (k v x : Nat) (l : List (Nat × Nat)) :
    x ∈ keysOf (insertSorted k v l) ↔ x = k ∨ x ∈ keysOf l := by
  induction l with
  | nil => simp [insertSorted, keysOf]
  | cons e t ih =>
    unfold insertSorted
    by_cases h1 : k < e.1
    · rw [if_pos h1]
      simp [keysOf]
    · rw [if_neg h1]
      by_cases h2 : k = e.1
      · rw [if_pos h2]
        subst h2
        simp [keysOf]
      · rw [if_neg h2]
        simp only [keysOf, List.map_cons, List.mem_cons] at ih ⊢
        rw [ih]
        tauto

/-- A map insertion grows the list by at most one entry. -/
theorem length_insertSorted_le (k v : Nat) (l : List (Nat × Nat)) :
    (insertSorted k v l).length ≤ l.length + 1 := by
  induction l with
  | nil => simp [insertSorted]
  | cons e t ih =>
    unfold insertSorted
    by_cases h1 : k < e.1
    · rw [if_pos h1]
      simp
    · rw [if_neg h1]
      by_cases h2 : k = e.1
      · rw [if_pos h2]
        simp
      · rw [if_neg h2]
        simp only [List.length_cons]
        omega

/-- A map insertion keeps the keys strictly increasing. -/
theorem sorted_insertSorted (k v : Nat) (l : List (Nat × Nat))
    (h : List.Pairwise (· < ·) (keysOf l)) :
    List.Pairwise (· < ·) (keysOf (insertSorted k v l)) := by
  induction l with
  | nil => simp [insertSorted, keysOf]
  | cons e t ih =>
    simp only [keysOf, List.map_cons, List.pairwise_cons] at h
    obtain ⟨hhead, htail⟩ := h
    unfold insertSorted
    by_cases h1 : k < e.1
    · rw [if_pos h1]
      simp only [keysOf, List.map_cons, List.pairwise_cons]
      refine ⟨?_, ?_⟩
      · intro b hb
        rcases List.mem_cons.mp hb with hb | hb
        · omega
        · have := hhead b hb
          omega
      · exact ⟨hhead, htail⟩
    · rw [if_neg h1]
      by_cases h2 : k = e.1
      · rw [if_pos h2]
        subst h2
        simp only [keysOf, List.map_cons, List.pairwise_cons]
        exact ⟨hhead, htail⟩
      · rw [if_neg h2]
        simp only [keysOf, List.map_cons, List.pairwise_cons]
        refine ⟨?_, ih htail⟩
        intro b hb
        rcases (keysOf_insertSorted k v b t).mp hb with hb | hb
        · omega
        · exact hhead b hb

/-- A key-preserving map over an association list preserves its keys. -/
theorem keysOf_map_eq (f : Nat × Nat → Nat × Nat) (hf : ∀ e, (f e).1 = e.1)
    (l : List (Nat × Nat)) : keysOf (l.map f) = keysOf l := by
  induction l with
  | nil => rfl
  | cons e t ih =>
    simp only [List.map_cons, keysOf, List.map_cons] at ih ⊢
    rw [hf e]
    exact congrArg (e.1 :: ·) ih

/-- Erasure only removes entries. -/
theorem keysOf_eraseKey_sub (k x : Nat) (l : List (Nat × Nat))
    (h : x ∈ keysOf (eraseKey k l)) : x ∈ keysOf l := by
  have hsub : List.Sublist (eraseKey k l) l := List.eraseP_sublist l
  exact (hsub.map Prod.fst).subset h

/-- Erasure of another key keeps a key present. -/
theorem mem_keysOf_eraseKey_of_ne (k x : Nat) (l : List (Nat × Nat))
    (hne : x ≠ k) (h : x ∈ keysOf l) : x ∈ keysOf (eraseKey k l) := by
  induction l with
  | nil => simpa [keysOf] using h
  | cons e t ih =>
    simp only [keysOf, List.map_cons, List.mem_cons] at h
    by_cases hp : e.1 = k
    · rcases h with h | h
      · exact absurd (h.trans hp) hne
      · unfold eraseKey
        rw [List.eraseP_cons, show (e.1 == k) = true by simpa using hp]
        simpa [keysOf] using h
    · unfold eraseKey
      rw [List.eraseP_cons, show (e.1 == k) = false by simpa using hp]
      simp only [cond_false, keysOf, List.map_cons, List.mem_cons]
      rcases h with h | h
      · exact Or.inl h
      · exact Or.inr (ih h)

/-- With strictly increasing keys, erasing a key removes it entirely. -/
theorem not_mem_keysOf_eraseKey (k : Nat) (l : List (Nat × Nat))
    (hs : List.Pairwise (· < ·) (keysOf l)) : k ∉ keysOf (eraseKey k l) := by
  induction l with
  | nil => simp [eraseKey, keysOf]
  | cons e t ih =>
    simp only [keysOf, List.map_cons, List.pairwise_cons] at hs
    obtain ⟨hhead, htail⟩ := hs
    by_cases hp : e.1 = k
    · unfold eraseKey
      rw [List.eraseP_cons, show (e.1 == k) = true by simpa using hp]
      simp only [cond_true]
      intro hmem
      have := hhead k (by simpa [keysOf] using hmem)
      omega
    · unfold eraseKey
      rw [List.eraseP_cons, show (e.1 == k) = false by simpa using hp]
      simp only [cond_false, keysOf, List.map_cons, List.mem_cons]
      rintro (h | h)
      · exact hp h.symm
      · exact ih htail h

/-- Erasing a present key shrinks the list by exactly one entry. -/
theorem length_eraseKey_of_mem (k : Nat) (l : List (Nat × Nat))
    (h : k ∈ keysOf l) : (eraseKey k l).length + 1 = l.length := by
  induction l with
  | nil => simp [keysOf] at h
  | cons e t ih =>
    by_cases hp : e.1 = k
    · unfold eraseKey
      rw [List.eraseP_cons, show (e.1 == k) = true by simpa using hp]
      simp
    · simp only [keysOf, List.map_cons, List.mem_cons] at h
      rcases h with h | h
      · exact absurd h.symm hp
      · unfold eraseKey
        rw [List.eraseP_cons, show (e.1 == k) = false by simpa using hp]
        simp only [cond_false, List.length_cons]
        unfold eraseKey at ih
        rw [ih h]

/-- The key the fully-associative max-scan returns is a key of the map. -/
theorem scanMax_mem_aux (l : List (Nat × Nat)) :
    ∀ acc : Nat × Option Nat, ∀ k,
      (l.foldl (fun acc e => if e.2 > acc.1 then (e.2, some e.1) else acc) acc).2 = some k →
      acc.2 = some k ∨ k ∈ keysOf l := by
  induction l with
  | nil => exact fun acc k h => Or.inl h
  | cons e t ih =>
    intro acc k h
    rw [List.foldl_cons] at h
    rcases ih _ k h with h2 | h2
    · by_cases hgt : e.2 > acc.1
      · rw [if_pos hgt] at h2
        simp only [Option.some.injEq] at h2
        right
        simp [keysOf, h2]
      · rw [if_neg hgt] at h2
        exact Or.inl h2
    · right
      simp only [keysOf, List.map_cons, List.mem_cons]
      exact Or.inr h2

/-- The fully-associative max-scan selects an existing key. -/
theorem scanMax_mem (l : List (Nat × Nat)) (k : Nat) (h : (scanMax l).2 = some k) :
    k ∈ keysOf l := by
  rcases scanMax_mem_aux l (0, none) k h with h2 | h2
  · exact Option.noConfusion h2
  · exact h2

/-- Aging preserves the priority keys. -/
theorem keysOf_mapAge (l : List (Nat × Nat)) : keysOf (mapAge l) = keysOf l :=
  keysOf_map_eq (fun e => (e.1, e.2 + 1)) (fun e => rfl) l

/-- Setting DIRTY preserves the tag-map keys. -/
theorem keysOf_faOrDirty (l : List (Nat × Nat)) (key : Nat) :
    keysOf (faOrDirty l key) = keysOf l :=
  keysOf_map_eq (fun e => if e.1 = key then (e.1, e.2 ||| DIRTY) else e)
    (fun e => by by_cases h : e.1 = key <;> simp [h]) l

/-- The fully-associative hit update keeps the priority keys sorted and
introduces at most the hit key. -/
theorem faHitPrio_inv (tp : List (Nat × Nat)) (key : Nat)
    (hs : List.Pairwise (· < ·) (keysOf tp)) :
    List.Pairwise (· < ·) (keysOf (faHitPrio tp key)) ∧
    ∀ x, x ∈ keysOf (faHitPrio tp key) → x = key ∨ x ∈ keysOf tp := by
  unfold faHitPrio
  have hkeys : keysOf (tp.map (fun e =>
      if e.1 ≠ key ∧ e.2 < (lookupV tp key).getD 0 then (e.1, e.2 + 1) else e)) = keysOf tp :=
    keysOf_map_eq _ (fun e => by
      by_cases h : e.1 ≠ key ∧ e.2 < (lookupV tp key).getD 0 <;> simp [h]) tp
  constructor
  · apply sorted_insertSorted
    rw [hkeys]
    exact hs
  · intro x hx
    rcases (keysOf_insertSorted _ _ _ _).mp hx with h | h
    · exact Or.inl h
    · right
      rwa [hkeys] at h

/-- The state returned by `fa_cache_sim_t::check_tag` is either unchanged or
the LRU hit update at a key of the tag map. -/
theorem faCheckTag_snd (t : FaCacheSim) (a : Nat) (r : Option Nat) (t1 : FaCacheSim)
    (h : faCheckTag t a = (r, t1)) :
    t1 = t ∨ ∃ key, key ∈ keysOf t.tags ∧
      t1 = { t with tag_priority := faHitPrio t.tag_priority key } := by
  simp only [faCheckTag] at h
  rcases hl : lookupV t.tags (a >>> t.idx_shift) with _ | v <;> rw [hl] at h
  · rw [Prod.mk.injEq] at h
    exact Or.inl h.2.symm
  · dsimp only at h
    by_cases hv : (v &&& VALID == 0) = true
    · rw [if_pos hv] at h
      rw [Prod.mk.injEq] at h
      exact Or.inl h.2.symm
    · rw [if_neg hv] at h
      by_cases hlru : t.lru = true
      · rw [if_pos hlru] at h
        rw [Prod.mk.injEq] at h
        right
        refine ⟨a >>> t.idx_shift, ?_, h.2.symm⟩
        unfold lookupV at hl
        rcases hf : t.tags.find? (fun e => e.1 == a >>> t.idx_shift) with _ | e <;>
          rw [hf] at hl
        · exact Option.noConfusion hl
        · have hmem := List.mem_of_find?_eq_some hf
          have hpred := List.find?_some hf
          have he : e.1 = a >>> t.idx_shift := by simpa using hpred
          rw [← he]
          exact List.mem_map.mpr ⟨e, hmem, rfl⟩
      · rw [if_neg hlru] at h
        rw [Prod.mk.injEq] at h
        exact Or.inl h.2.symm

/-- The LRU hit update at a present key preserves the map invariant. -/
theorem faInv_hitPrioState (t : FaCacheSim) (key : Nat) (hkey : key ∈ keysOf t.tags)
    (hinv : faInv t) : faInv { t with tag_priority := faHitPrio t.tag_priority key } := by
  refine ⟨hinv.1, ?_⟩
  intro hlru
  obtain ⟨hs, hsub⟩ := hinv.2 hlru
  obtain ⟨h1, h2⟩ := faHitPrio_inv t.tag_priority key hs
  refine ⟨h1, ?_⟩
  intro x hx
  rcases h2 x hx with h | h
  · rw [h]
    exact hkey
  · exact hsub x h

/-- Setting DIRTY on a map entry preserves the invariant. -/
theorem faInv_orDirtyState (t : FaCacheSim) (key : Nat) (hinv : faInv t) :
    faInv { t with tags := faOrDirty t.tags key } := by
  have hk := keysOf_faOrDirty t.tags key
  refine ⟨?_, ?_⟩
  · show (faOrDirty t.tags key).length ≤ t.ways
    unfold faOrDirty
    rw [List.length_map]
    exact hinv.1
  · intro hlru
    obtain ⟨hs, hsub⟩ := hinv.2 hlru
    refine ⟨hs, ?_⟩
    intro x hx
    show x ∈ keysOf (faOrDirty t.tags key)
    rw [hk]
    exact hsub x hx

/-- `check_tag` preserves the invariant and the configuration and tag map. -/
theorem faCheckTag_facts (t : FaCacheSim) (a : Nat) (r : Option Nat) (t1 : FaCacheSim)
    (hinv : faInv t) (h : faCheckTag t a = (r, t1)) :
    faInv t1 ∧ t1.ways = t.ways ∧ t1.lru = t.lru ∧ t1.wb = t.wb ∧
    t1.has_miss_handler = t.has_miss_handler ∧ t1.tags = t.tags := by
  rcases faCheckTag_snd t a r t1 h with h1 | ⟨key, hkey, h1⟩ <;> rw [h1]
  · exact ⟨hinv, rfl, rfl, rfl, rfl, rfl⟩
  · exact ⟨faInv_hitPrioState t key hkey hinv, rfl, rfl, rfl, rfl, rfl⟩

/-- Record form of the access-counter bump of the shared `access`. -/
theorem faBump_eq (s : FaCacheSim) (b : Nat) (st : Bool) :
    (if st then
      { s with write_accesses := s.write_accesses + 1, bytes_written := s.bytes_written + b }
    else
      { s with read_accesses := s.read_accesses + 1, bytes_read := s.bytes_read + b }) =
    { s with
      read_accesses := s.read_accesses + (if st then 0 else 1),
      write_accesses := s.write_accesses + (if st then 1 else 0),
      bytes_read := s.bytes_read + (if st then 0 else b),
      bytes_written := s.bytes_written + (if st then b else 0) } := by
  cases st <;> rfl

/-- Record form of the miss-counter bump of the shared `access`. -/
theorem faMiss_eq (s : FaCacheSim) (st : Bool) :
    (if st then { s with write_misses := s.write_misses + 1 }
     else { s with read_misses := s.read_misses + 1 }) =
    { s with
      read_misses := s.read_misses + (if st then 0 else 1),
      write_misses := s.write_misses + (if st then 1 else 0) } := by
  cases st <;> rfl

/-- A successful `fa_cache_sim_t::victimize` preserves the invariant — in
particular the tag map stays within `ways` entries — and the
configuration. -/
theorem faVictimize_inv (s : FaCacheSim) (a victim : Nat) (ev : Bool)
    (s3 : FaCacheSim) (hinv : faInv s)
    (h : faVictimize s a = some (victim, ev, s3)) :
    faInv s3 ∧ s3.ways = s.ways ∧ s3.lru = s.lru ∧ s3.wb = s.wb ∧
    s3.has_miss_handler = s.has_miss_handler ∧ s3.linesz = s.linesz := by
  simp only [faVictimize] at h
  by_cases hfull : s.tags.length = s.ways
  · rw [if_pos hfull] at h
    by_cases hlru : s.lru = true
    · rw [if_pos hlru] at h
      obtain ⟨hsort, hsub⟩ := hinv.2 hlru
      rcases hsm : (scanMax (mapAge s.tag_priority)).2 with _ | mk <;> rw [hsm] at h
      · exact Option.noConfusion h
      · dsimp only at h
        rw [if_pos hlru] at h
        simp only [Option.some.injEq, Prod.mk.injEq] at h
        obtain ⟨-, -, hs3⟩ := h
        subst hs3
        have hmk_prio : mk ∈ keysOf s.tag_priority := by
          have := scanMax_mem _ mk hsm
          rwa [keysOf_mapAge] at this
        have hmk_tags : mk ∈ keysOf s.tags := hsub mk hmk_prio
        have hsort_aged : List.Pairwise (· < ·) (keysOf (mapAge s.tag_priority)) := by
          rw [keysOf_mapAge]
          exact hsort
        refine ⟨⟨?_, ?_⟩, rfl, rfl, rfl, rfl, rfl⟩
        · show (insertSorted (a >>> s.idx_shift) (a >>> s.idx_shift ||| VALID)
            (eraseKey mk s.tags)).length ≤ s.ways
          have h1 := length_insertSorted_le (a >>> s.idx_shift)
            (a >>> s.idx_shift ||| VALID) (eraseKey mk s.tags)
          have h2 := length_eraseKey_of_mem mk s.tags hmk_tags
          omega
        · intro hlru2
          constructor
          · apply sorted_insertSorted
            have hsubl : List.Sublist (eraseKey mk (mapAge s.tag_priority))
                (mapAge s.tag_priority) := List.eraseP_sublist _
            exact List.Pairwise.sublist (hsubl.map Prod.fst) hsort_aged
          · intro x hx
            rcases (keysOf_insertSorted _ _ _ _).mp hx with hxk | hx2
            · exact (keysOf_insertSorted _ _ _ _).mpr (Or.inl hxk)
            · have hxne : x ≠ mk := by
                intro hxe
                subst hxe
                exact not_mem_keysOf_eraseKey x _ hsort_aged hx2
              have hx3 : x ∈ keysOf (mapAge s.tag_priority) := keysOf_eraseKey_sub _ _ _ hx2
              rw [keysOf_mapAge] at hx3
              have hx4 : x ∈ keysOf s.tags := hsub x hx3
              exact (keysOf_insertSorted _ _ _ _).mpr
                (Or.inr (mem_keysOf_eraseKey_of_ne mk x s.tags hxne hx4))
    · rw [if_neg hlru] at h
      by_cases hw0 : s.ways = 0
      · rw [if_pos hw0] at h
        exact Option.noConfusion h
      · rw [if_neg hw0] at h
        rcases hg : s.tags.get? (lfsrNext s.lfsr % s.ways) with _ | e <;> rw [hg] at h
        · exact Option.noConfusion h
        · dsimp only at h
          rw [if_neg hlru] at h
          simp only [Option.some.injEq, Prod.mk.injEq] at h
          obtain ⟨-, -, hs3⟩ := h
          subst hs3
          have hlt : lfsrNext s.lfsr % s.ways < s.tags.length := by
            rcases List.get?_eq_some.mp hg with ⟨hlt, -⟩
            exact hlt
          refine ⟨⟨?_, ?_⟩, rfl, rfl, rfl, rfl, rfl⟩
          · show (insertSorted (a >>> s.idx_shift) (a >>> s.idx_shift ||| VALID)
              (s.tags.eraseIdx (lfsrNext s.lfsr % s.ways))).length ≤ s.ways
            have h1 := length_insertSorted_le (a >>> s.idx_shift)
              (a >>> s.idx_shift ||| VALID) (s.tags.eraseIdx (lfsrNext s.lfsr % s.ways))
            have h2 : (s.tags.eraseIdx (lfsrNext s.lfsr % s.ways)).length =
                s.tags.length - 1 := by
              rw [List.length_eraseIdx, if_pos hlt]
            omega
          · intro hlru2
            exact absurd hlru2 hlru
  · rw [if_neg hfull] at h
    dsimp only at h
    simp only [Option.some.injEq, Prod.mk.injEq] at h
    obtain ⟨-, -, hs3⟩ := h
    subst hs3
    have hlen : s.tags.length < s.ways := Nat.lt_of_le_of_ne hinv.1 hfull
    refine ⟨⟨?_, ?_⟩, rfl, rfl, rfl, rfl, rfl⟩
    · show (insertSorted (a >>> s.idx_shift) (a >>> s.idx_shift ||| VALID) s.tags).length ≤
        s.ways
      have h1 := length_insertSorted_le (a >>> s.idx_shift) (a >>> s.idx_shift ||| VALID)
        s.tags
      omega
    · intro hlru2
      rw [if_pos hlru2]
      obtain ⟨hsort, hsub⟩ := hinv.2 hlru2
      constructor
      · exact sorted_insertSorted _ _ _ hsort
      · intro x hx
        rcases (keysOf_insertSorted _ _ _ _).mp hx with hxk | hx2
        · exact (keysOf_insertSorted _ _ _ _).mpr (Or.inl hxk)
        · exact (keysOf_insertSorted _ _ _ _).mpr (Or.inr (hsub x hx2))

/-- A fresh fully-associative node satisfies the invariant. -/
theorem faInv_mkFaCache (ways linesz : Nat) (lru wb mh : Bool) :
    faInv (mkFaCache ways linesz lru wb mh) := by
  refine ⟨Nat.zero_le _, ?_⟩
  intro hlru
  exact ⟨List.Pairwise.nil, fun x hx => absurd hx (List.not_mem_nil x)⟩

/-- The shared `access`, executed fully-associatively, preserves the
invariant and the configuration. -/
theorem faAccess_inv (s : FaCacheSim) (a b : Nat) (st : Bool) (s' : FaCacheSim)
    (o : FaAccessOut) (hinv : faInv s) (h : faAccess s a b st = some (s', o)) :
    faInv s' ∧ s'.ways = s.ways ∧ s'.lru = s.lru := by
  simp only [faAccess] at h
  rw [faBump_eq] at h
  rcases hct : faCheckTag
      { s with
        read_accesses := s.read_accesses + (if st then 0 else 1),
        write_accesses := s.write_accesses + (if st then 1 else 0),
        bytes_read := s.bytes_read + (if st then 0 else b),
        bytes_written := s.bytes_written + (if st then b else 0) } a with ⟨r, s1⟩
  rw [hct] at h
  obtain ⟨hinv1, hw1, hl1, hwb1, hmh1, ht1⟩ := faCheckTag_facts _ a r s1 (by exact hinv) hct
  have hw1s : s1.ways = s.ways := hw1
  have hl1s : s1.lru = s.lru := hl1
  rcases r with _ | key
  · dsimp only at h
    rcases hv : faVictimize _ a with _ | ⟨victim, ev, s3⟩ <;> rw [hv] at h
    · exact Option.noConfusion h
    dsimp only at h
    obtain ⟨hinv3, hw3, hl3, hwb3, hmh3, -⟩ :=
      faVictimize_inv _ a victim ev s3 (by cases st <;> exact hinv) hv
    have hw3s : s3.ways = s.ways := by cases st <;> exact hw3
    have hl3s : s3.lru = s.lru := by cases st <;> exact hl3
    generalize hs4 : (if (s3.wb && (victim &&& (VALID ||| DIRTY) == VALID ||| DIRTY)) = true
      then { s3 with writebacks := s3.writebacks + 1 } else s3) = s4v at h
    have hfacts4 : faInv s4v ∧ s4v.ways = s3.ways ∧ s4v.lru = s3.lru ∧ s4v.wb = s3.wb ∧
        s4v.has_miss_handler = s3.has_miss_handler := by
      rw [← hs4]
      by_cases hc : (s3.wb && (victim &&& (VALID ||| DIRTY) == VALID ||| DIRTY)) = true
      · rw [if_pos hc]
        exact ⟨hinv3, rfl, rfl, rfl, rfl⟩
      · rw [if_neg hc]
        exact ⟨hinv3, rfl, rfl, rfl, rfl⟩
    obtain ⟨hinv4, hw4, hl4, -, -⟩ := hfacts4
    by_cases hc5 : (st && s4v.wb) = true
    · rw [if_pos hc5] at h
      rcases hct2 : faCheckTag s4v a with ⟨r2, s5⟩
      rw [hct2] at h
      rcases r2 with _ | key2
      · dsimp only at h
        exact Option.noConfusion h
      · dsimp only at h
        simp only [Option.some.injEq, Prod.mk.injEq] at h
        obtain ⟨h1, -⟩ := h
        subst h1
        obtain ⟨hinv5, hw5, hl5, -, -, -⟩ := faCheckTag_facts s4v a _ s5 hinv4 hct2
        refine ⟨faInv_orDirtyState s5 key2 hinv5, ?_, ?_⟩
        · show s5.ways = s.ways
          rw [hw5, hw4, hw3s]
        · show s5.lru = s.lru
          rw [hl5, hl4, hl3s]
    · rw [if_neg hc5] at h
      by_cases hc6 : (st && s4v.has_miss_handler) = true
      · rw [if_pos hc6] at h
        simp only [Option.some.injEq, Prod.mk.injEq] at h
        obtain ⟨h1, -⟩ := h
        subst h1
        exact ⟨hinv4, by rw [hw4, hw3s], by rw [hl4, hl3s]⟩
      · rw [if_neg hc6] at h
        simp only [Option.some.injEq, Prod.mk.injEq] at h
        obtain ⟨h1, -⟩ := h
        subst h1
        exact ⟨hinv4, by rw [hw4, hw3s], by rw [hl4, hl3s]⟩
  · dsimp only at h
    by_cases hcw : (st && s1.wb) = true
    · rw [if_pos hcw] at h
      simp only [Option.some.injEq, Prod.mk.injEq] at h
      obtain ⟨h1, -⟩ := h
      subst h1
      exact ⟨faInv_orDirtyState s1 key hinv1, hw1s, hl1s⟩
    · rw [if_neg hcw] at h
      by_cases hcm : (st && s1.has_miss_handler) = true
      · rw [if_pos hcm] at h
        simp only [Option.some.injEq, Prod.mk.injEq] at h
        obtain ⟨h1, -⟩ := h
        subst h1
        exact ⟨hinv1, hw1s, hl1s⟩
      · rw [if_neg hcm] at h
        simp only [Option.some.injEq, Prod.mk.injEq] at h
        obtain ⟨h1, -⟩ := h
        subst h1
        exact ⟨hinv1, hw1s, hl1s⟩

/-- The invariant holds along every completed fully-associative run. -/
theorem faInv_run (l : List (Nat × Nat × Bool)) :
    ∀ s n res, faRunEv s n l = some res → faInv s →
    faInv res.1 ∧ res.1.ways = s.ways := by
  induction l with
  | nil =>
    intro s n res h hinv
    simp only [faRunEv, Option.some.injEq] at h
    subst h
    exact ⟨hinv, rfl⟩
  | cons x rest ih =>
    intro s n res h hinv
    rcases x with ⟨a, b, st⟩
    simp only [faRunEv] at h
    rcases hacc : faAccess s a b st with _ | ⟨s1, o⟩ <;> rw [hacc] at h
    · exact Option.noConfusion h
    · obtain ⟨hinv1, hw1, -⟩ := faAccess_inv s a b st s1 o hinv hacc
      obtain ⟨hi, hw⟩ := ih s1 _ res h hinv1
      exact ⟨hi, by rw [hw, hw1]⟩

/-- C8: the fully-associative tag map never exceeds `ways` entries after any
completed run from a fresh node; the configuration "1:8:16" does construct
the fully-associative variant with random replacement, and 9 loads of
distinct cold blocks leave its map with exactly 8 entries after exactly one
eviction. -/
theorem claim_C8 :
    (∀ ways linesz : Nat, ∀ lru wb mh : Bool, ∀ l res,
      faRunEv (mkFaCache ways linesz lru wb mh) 0 l = some res →
      res.1.tags.length ≤ ways) ∧
    constructCfg "1:8:16" = some ⟨true, 1, 8, 16, false⟩ ∧
    ((faRunEv (mkFaCache 8 16 false true false) 0
        [(0, 1, false), (16, 1, false), (32, 1, false), (48, 1, false), (64, 1, false),
         (80, 1, false), (96, 1, false), (112, 1, false), (128, 1, false)]).map
      (fun r => (r.1.tags.length, r.2))) = some (8, 1) := by
  refine ⟨?_, by decide, by decide⟩
  intro ways linesz lru wb mh l res h
  obtain ⟨hi, hw⟩ := faInv_run l (mkFaCache ways linesz lru wb mh) 0 res h
    (faInv_mkFaCache ways linesz lru wb mh)
  have hlen := hi.1
  rw [hw] at hlen
  exact hlen

/-- Witness for C8: the bound at a concrete completed LRU run. -/
theorem claim_C8_witness :
    ((faRunEv (mkFaCache 2 8 true true false) 0 [(0, 1, false), (8, 1, true)]).map
      (fun r => decide (r.1.tags.length ≤ 2))) = some true := by
  rcases hrun : faRunEv (mkFaCache 2 8 true true false) 0 [(0, 1, false), (8, 1, true)]
      with _ | res
  · have hsome : (faRunEv (mkFaCache 2 8 true true false) 0
        [(0, 1, false), (8, 1, true)]).isSome = true := by decide
    rw [hrun] at hsome
    exact Bool.noConfusion hsome
  · have h := claim_C8.1 2 8 true true false [(0, 1, false), (8, 1, true)] res hrun
    simp [decide_eq_true h]

end CacheSimProof
